import Mathlib

/-!
# SHAD distributed minimum / maximum operations

A shallow embedding of `include/shad/core/impl/minimum_maximum_ops.h`.

* A global iterator of a distributed range is a natural number: the logical index of the
  element it points to.  `first` is `0` and `last` is the number of elements.
* A local iterator of one locality is the index inside that locality's local range; the
  local end iterator `nil_val` is the length of the local range.
* Dereferencing an iterator is a partial operation (`deref`).  Where the source guards a
  dereference by a comparison with the end iterator the guard is kept; where the source
  dereferences without a guard the embedding is `Option`-valued and `none` stands for
  reading through an end iterator.
* `value_t{}`, the default-constructed value, is the explicit parameter `dv`.
-/

namespace shad

/-! ## The standard-library algorithms the kernels call -/

namespace std

variable {β : Type}

/-- Loop of `std::min_element`: `i` is the iterator being visited, `smallest` the current
result and `sv` the element it points to; the result moves only when `comp(*i, *smallest)`. -/
def min_element_loop (comp : β → β → Bool) : List β → Nat → Nat → β → Nat
  | [], _, smallest, _ => smallest
  | x :: rest, i, smallest, sv =>
    if comp x sv then min_element_loop comp rest (i + 1) i x
    else min_element_loop comp rest (i + 1) smallest sv

/-- Model of `std::min_element(first, last, comp)` on the range holding the elements of the
list; the result is an index, and the end iterator (the length, `0` here) on an empty range. -/
def min_element (comp : β → β → Bool) : List β → Nat
  | [] => 0
  | x :: rest => min_element_loop comp rest 1 0 x

/-- Loop of `std::max_element`: the result moves only when `comp(*largest, *i)`. -/
def max_element_loop (comp : β → β → Bool) : List β → Nat → Nat → β → Nat
  | [], _, largest, _ => largest
  | x :: rest, i, largest, lv =>
    if comp lv x then max_element_loop comp rest (i + 1) i x
    else max_element_loop comp rest (i + 1) largest lv

/-- Model of `std::max_element(first, last, comp)`; the end iterator on an empty range. -/
def max_element (comp : β → β → Bool) : List β → Nat
  | [] => 0
  | x :: rest => max_element_loop comp rest 1 0 x

/-- Loop of `std::minmax_element`: the minimum moves when the visited element is smaller,
the maximum moves when the visited element is not smaller than it. -/
def minmax_element_loop (comp : β → β → Bool) :
    List β → Nat → Nat × β → Nat × β → Nat × Nat
  | [], _, mn, mx => (mn.1, mx.1)
  | x :: rest, i, mn, mx =>
    minmax_element_loop comp rest (i + 1)
      (if comp x mn.2 then (i, x) else mn)
      (if comp x mx.2 then mx else (i, x))

/-- Model of `std::minmax_element(first, last, comp)`: the pair of the first smallest and the
last largest element, as the C++ standard specifies; `(first, first)` on an empty range. -/
def minmax_element (comp : β → β → Bool) : List β → Nat × Nat
  | [] => (0, 0)
  | x :: rest => minmax_element_loop comp rest 1 (0, x) (0, x)

/-- Loop of `std::min_element` for a comparator that dereferences iterators and may thereby
read through an end iterator (`none`). -/
def min_element_chk_loop (comp : β → β → Option Bool) : List β → Nat → Nat → β → Option Nat
  | [], _, smallest, _ => some smallest
  | x :: rest, i, smallest, sv =>
    match comp x sv with
    | none => none
    | some true => min_element_chk_loop comp rest (i + 1) i x
    | some false => min_element_chk_loop comp rest (i + 1) smallest sv

/-- Variant of `std::min_element` for a comparator that may fail. -/
def min_element_chk (comp : β → β → Option Bool) : List β → Option Nat
  | [] => some 0
  | x :: rest => min_element_chk_loop comp rest 1 0 x

/-- Loop of `std::max_element` for a comparator that may fail. -/
def max_element_chk_loop (comp : β → β → Option Bool) : List β → Nat → Nat → β → Option Nat
  | [], _, largest, _ => some largest
  | x :: rest, i, largest, lv =>
    match comp lv x with
    | none => none
    | some true => max_element_chk_loop comp rest (i + 1) i x
    | some false => max_element_chk_loop comp rest (i + 1) largest lv

/-- Variant of `std::max_element` for a comparator that may fail. -/
def max_element_chk (comp : β → β → Option Bool) : List β → Option Nat
  | [] => some 0
  | x :: rest => max_element_chk_loop comp rest 1 0 x

end std

/-! ## Data model: distributed ranges, localities, iterator traits -/

variable {α : Type}

/-- The partition of one locality, given as the consecutive sub-ranges into which
`local_map` cuts the local range. -/
abbrev Partition (α : Type) := List (List α)

/-- A distributed range `[first, last)`: one partition per locality, in canonical order. -/
abbrev DistributedRange (α : Type) := List (Partition α)

/-- The local range of a partition, `itr_traits::local_range(first, last)`. -/
def local_range (p : Partition α) : List α := p.flatten

/-- The logical sequence held by a distributed range, in canonical traversal order. -/
def elements (r : DistributedRange α) : List α := (r.map local_range).flatten

/-- What a kernel sees when it runs on one locality: the global position of the first local
element and the local partition. -/
structure LocalView (α : Type) where
  /-- Global position of `local_range(first, last).begin()`. -/
  offset : Nat
  /-- The blocks of the local range. -/
  blocks : Partition α

/-- The local views of the partitions when the first one starts at global position `off`. -/
def localities_from : Nat → DistributedRange α → List (LocalView α)
  | _, [] => []
  | off, p :: ps => ⟨off, p⟩ :: localities_from (off + (local_range p).length) ps

/-- Modelled from the spec: `itr_traits::localities(first, last)`, the localities of the range
in canonical order (declared in the absent `distributed_iterator_traits.h`). -/
def localities (r : DistributedRange α) : List (LocalView α) := localities_from 0 r

/-- Dereference of a local iterator; `none` for the local end iterator. -/
def deref (lrange : List α) (it : Nat) : Option α := lrange[it]?

/-- Modelled from the spec: `itr_traits::iterator_from_local(first, last, it)` maps a local
position to the global position, and the local end `nil_val` to the sentinel `last`
(declared in the absent `distributed_iterator_traits.h`). -/
def iterator_from_local (last : Nat) (v : LocalView α) (it : Nat) : Nat :=
  if it = (local_range v.blocks).length then last else v.offset + it

/-- Modelled from the spec: `distributed_folding_map(first, last, kernel, init, args...)` invokes
the kernel once per partition, strictly sequentially in canonical order, threading the running
solution (defined in the absent `impl_patterns.h`). -/
def distributed_folding_map {S : Type} (r : DistributedRange α)
    (kernel : LocalView α → S → S) (init_sol : S) : S :=
  (localities r).foldl (fun sol v => kernel v sol) init_sol

/-- Sequencing of the per-locality kernel results; `none` as soon as one kernel fails. -/
def collect {γ : Type} (kernel : LocalView α → Option γ) : List (LocalView α) → Option (List γ)
  | [] => some []
  | v :: vs =>
    match kernel v, collect kernel vs with
    | some x, some xs => some (x :: xs)
    | _, _ => none

/-- Modelled from the spec: `distributed_map(first, last, kernel, args...)` invokes the kernel
once per partition and returns the results in canonical locality order (defined in the absent
`impl_patterns.h`). -/
def distributed_map {γ : Type} (r : DistributedRange α)
    (kernel : LocalView α → Option γ) : Option (List γ) :=
  collect kernel (localities r)

/-- The blocks of a partition with the local position at which each one starts. -/
def blocks_from : Nat → Partition α → List (Nat × List α)
  | _, [] => []
  | b, blk :: rest => (b, blk) :: blocks_from (b + blk.length) rest

/-- Modelled from the spec: `local_map(begin, end, kernel)` applies the kernel to the consecutive
sub-ranges of one partition and returns the results in order (defined in the absent
`impl_patterns.h`).  The kernel receives the begin iterator of its sub-range and the elements
of the sub-range. -/
def local_map {γ : Type} (p : Partition α) (kernel : Nat → List α → γ) : List γ :=
  (blocks_from 0 p).map (fun b => kernel b.1 b.2)

/-- The end iterator `last` of a distributed range whose `first` is `0`. -/
def range_last (r : DistributedRange α) : Nat := (elements r).length

namespace impl

/-! ## `minimum_maximum_ops.h`, sequential policy -/

namespace distributed_sequential_tag

/-- Kernel of `max_element(distributed_sequential_tag&&, ...)`. -/
def max_element_kernel (comp : α → α → Bool) (last : Nat) (v : LocalView α)
    (partial_solution : Nat × α) : Nat × α :=
  let lrange := local_range v.blocks
  let lmax := std.max_element comp lrange
  -- `lmax != nil_val` holds exactly when `lmax` can be dereferenced
  match deref lrange lmax with
  | some x =>
    if partial_solution.1 = last ∨ comp partial_solution.2 x = true then
      (iterator_from_local last v lmax, x)
    else partial_solution
  | none => partial_solution

/-- Model of `max_element(distributed_sequential_tag&&, first, last, comp)`. -/
def max_element (dv : α) (comp : α → α → Bool) (r : DistributedRange α) : Nat :=
  let last := range_last r
  if 0 = last then last
  else (distributed_folding_map r (max_element_kernel comp last) (last, dv)).1

/-- Kernel of `min_element(distributed_sequential_tag&&, ...)`. -/
def min_element_kernel (comp : α → α → Bool) (last : Nat) (v : LocalView α)
    (partial_solution : Nat × α) : Nat × α :=
  let lrange := local_range v.blocks
  let lmin := std.min_element comp lrange
  match deref lrange lmin with
  | some x =>
    if partial_solution.1 = last ∨ comp x partial_solution.2 = true then
      (iterator_from_local last v lmin, x)
    else partial_solution
  | none => partial_solution

/-- Model of `min_element(distributed_sequential_tag&&, first, last, comp)`. -/
def min_element (dv : α) (comp : α → α → Bool) (r : DistributedRange α) : Nat :=
  let last := range_last r
  if 0 = last then last
  else (distributed_folding_map r (min_element_kernel comp last) (last, dv)).1

/-- The running solution `sol_t` of `minmax_element`. -/
structure sol_t (α : Type) where
  /-- Position of the minimum, `last` for none. -/
  min : Nat
  /-- Position of the maximum, `last` for none. -/
  max : Nat
  /-- Value of the minimum. -/
  min_val : α
  /-- Value of the maximum. -/
  max_val : α

/-- Kernel of `minmax_element(distributed_sequential_tag&&, ...)`. -/
def minmax_element_kernel (comp : α → α → Bool) (last : Nat) (v : LocalView α)
    (partial_solution : sol_t α) : sol_t α :=
  let lrange := local_range v.blocks
  let lminmax := std.minmax_element comp lrange
  let res := partial_solution
  let res :=
    match deref lrange lminmax.1 with
    | some x =>
      if partial_solution.min = last ∨ comp x partial_solution.min_val = true then
        { res with min := iterator_from_local last v lminmax.1, min_val := x }
      else res
    | none => res
  let res :=
    match deref lrange lminmax.2 with
    | some x =>
      if partial_solution.max = last ∨ comp partial_solution.max_val x = true then
        { res with max := iterator_from_local last v lminmax.2, max_val := x }
      else res
    | none => res
  res

/-- Model of `minmax_element(distributed_sequential_tag&&, first, last, comp)`. -/
def minmax_element (dv : α) (comp : α → α → Bool) (r : DistributedRange α) : Nat × Nat :=
  let last := range_last r
  if 0 = last then (last, last)
  else
    let map_res := distributed_folding_map r (minmax_element_kernel comp last)
      ⟨last, last, dv, dv⟩
    (map_res.min, map_res.max)

end distributed_sequential_tag

/-! ## `minimum_maximum_ops.h`, parallel policy -/

namespace distributed_parallel_tag

/-- Comparator of the local reduce of the minimum: `x != nil_val && comp(*x, *y)`. -/
def local_min_comp (comp : α → α → Bool) (lrange : List α) (x y : Nat) : Option Bool :=
  if x ≠ lrange.length then
    match deref lrange x, deref lrange y with
    | some a, some b => some (comp a b)
    | _, _ => none
  else some false

/-- Comparator of the local reduce of the maximum: `y != nil_val && comp(*x, *y)`. -/
def local_max_comp (comp : α → α → Bool) (lrange : List α) (x y : Nat) : Option Bool :=
  if y ≠ lrange.length then
    match deref lrange x, deref lrange y with
    | some a, some b => some (comp a b)
    | _, _ => none
  else some false

/-- Kernel of `max_element(distributed_parallel_tag&&, ...)`: local map over the blocks, local
reduce, local solution. -/
def max_element_kernel (dv : α) (comp : α → α → Bool) (last : Nat) (v : LocalView α) :
    Option (Nat × α) :=
  let lrange := local_range v.blocks
  let map_res := local_map v.blocks (fun b blk => b + std.max_element comp blk)
  let nil_val := lrange.length
  match std.max_element_chk (local_max_comp comp lrange) map_res with
  | none => none
  | some lmax_it =>
    let lmax := (map_res[lmax_it]?).getD nil_val
    let gres := iterator_from_local last v lmax
    some (gres, (deref lrange lmax).getD dv)

/-- Model of `max_element(distributed_parallel_tag&&, first, last, comp)`; `none` when an end
iterator is dereferenced. -/
def max_element (dv : α) (comp : α → α → Bool) (r : DistributedRange α) : Option Nat :=
  let last := range_last r
  if 0 = last then some last
  else
    match distributed_map r (max_element_kernel dv comp last) with
    | none => none
    | some map_res =>
      let res_it := std.max_element
        (fun x y => decide (y.1 ≠ last) && comp x.2 y.2) map_res
      (map_res[res_it]?).map (fun res => res.1)

/-- Kernel of `min_element(distributed_parallel_tag&&, ...)`. -/
def min_element_kernel (dv : α) (comp : α → α → Bool) (last : Nat) (v : LocalView α) :
    Option (Nat × α) :=
  let lrange := local_range v.blocks
  let map_res := local_map v.blocks (fun b blk => b + std.min_element comp blk)
  let nil_val := lrange.length
  match std.min_element_chk (local_min_comp comp lrange) map_res with
  | none => none
  | some lmin_it =>
    let lmin := (map_res[lmin_it]?).getD nil_val
    let gres := iterator_from_local last v lmin
    some (gres, (deref lrange lmin).getD dv)

/-- Model of `min_element(distributed_parallel_tag&&, first, last, comp)`; `none` when an end
iterator is dereferenced. -/
def min_element (dv : α) (comp : α → α → Bool) (r : DistributedRange α) : Option Nat :=
  let last := range_last r
  if 0 = last then some last
  else
    match distributed_map r (min_element_kernel dv comp last) with
    | none => none
    | some map_res =>
      let res_it := std.min_element
        (fun x y => decide (x.1 ≠ last) && comp x.2 y.2) map_res
      (map_res[res_it]?).map (fun res => res.1)

/-- The per-partition solution `sol_t` of the parallel `minmax_element`. -/
structure sol_t (α : Type) where
  /-- Position of the minimum, `last` for none. -/
  min : Nat
  /-- Position of the maximum, `last` for none. -/
  max : Nat
  /-- Value of the minimum, `value_t{}` for none. -/
  min_val : α
  /-- Value of the maximum, `value_t{}` for none. -/
  max_val : α

/-- Kernel of `minmax_element(distributed_parallel_tag&&, ...)`. -/
def minmax_element_kernel (dv : α) (comp : α → α → Bool) (last : Nat) (v : LocalView α) :
    Option (sol_t α) :=
  let lrange := local_range v.blocks
  let map_res := local_map v.blocks (fun b blk =>
    (b + (std.minmax_element comp blk).1, b + (std.minmax_element comp blk).2))
  let nil_val := lrange.length
  match std.min_element_chk (fun x y => local_min_comp comp lrange x.1 y.1) map_res,
        std.max_element_chk (fun x y => local_max_comp comp lrange x.2 y.2) map_res with
  | some lmin_it, some lmax_it =>
    let lmin := ((map_res[lmin_it]?).map (fun x => x.1)).getD nil_val
    let lmax := ((map_res[lmax_it]?).map (fun x => x.2)).getD nil_val
    some ⟨iterator_from_local last v lmin, iterator_from_local last v lmax,
      (deref lrange lmin).getD dv, (deref lrange lmax).getD dv⟩
  | _, _ => none

/-- Model of `minmax_element(distributed_parallel_tag&&, first, last, comp)`; `none` when an
end iterator is dereferenced. -/
def minmax_element (dv : α) (comp : α → α → Bool) (r : DistributedRange α) :
    Option (Nat × Nat) :=
  let last := range_last r
  if 0 = last then some (last, last)
  else
    match distributed_map r (minmax_element_kernel dv comp last) with
    | none => none
    | some map_res =>
      let res_min := std.min_element
        (fun x y => decide (x.min ≠ last) && comp x.min_val y.min_val) map_res
      let res_max := std.max_element
        (fun x y => decide (y.max ≠ last) && comp x.max_val y.max_val) map_res
      match map_res[res_min]?, map_res[res_max]? with
      | some a, some b => some (a.min, b.max)
      | _, _ => none

end distributed_parallel_tag

end impl

/-! ## Comparators -/

/-- A strict weak order: irreflexive, transitive, and with a transitive induced equivalence of
incomparable elements. -/
structure StrictWeakOrder (comp : α → α → Bool) : Prop where
  /-- No element is less than itself. -/
  irrefl : ∀ a, comp a a = false
  /-- The order is transitive. -/
  trans : ∀ a b c, comp a b = true → comp b c = true → comp a c = true
  /-- Incomparability is transitive. -/
  equiv_trans : ∀ a b c, comp a b = false → comp b a = false → comp b c = false →
    comp c b = false → comp a c = false ∧ comp c a = false

/-- The comparator `<` on natural numbers. -/
def ltN (a b : Nat) : Bool := decide (a < b)

/-- The comparator `<` on integers. -/
def ltZ (a b : Int) : Bool := decide (a < b)

/-- Position `p` of the sequence holds the earliest element that no element is
`comp`-less than: the first occurrence of a minimum. -/
def IsEarliestMinimal (comp : α → α → Bool) (s : List α) (p : Nat) : Prop :=
  (∃ e, s[p]? = some e ∧ ∀ y ∈ s, comp y e = false) ∧
    ∀ j e, j < p → s[j]? = some e → ∃ y ∈ s, comp y e = true

/-- Position `p` of the sequence holds the earliest element that is `comp`-less than no
element: the first occurrence of a maximum. -/
def IsEarliestMaximal (comp : α → α → Bool) (s : List α) (p : Nat) : Prop :=
  (∃ e, s[p]? = some e ∧ ∀ y ∈ s, comp e y = false) ∧
    ∀ j e, j < p → s[j]? = some e → ∃ y ∈ s, comp e y = true

/-- The scenario of the specification: `[3,1,4,1] | [5,9,2,6]`. -/
def scenario : DistributedRange Nat := [[[3, 1, 4, 1]], [[5, 9, 2, 6]]]

/-! ## Vocabulary of the proofs -/

/-- Position `p` holds `e`, no element of `s` is less than `e`, and `e` is less than every
element strictly before `p`. -/
def FirstMinAt (comp : α → α → Bool) (s : List α) (p : Nat) (e : α) : Prop :=
  s[p]? = some e ∧ (∀ x ∈ s, comp x e = false) ∧
    ∀ j x, j < p → s[j]? = some x → comp e x = true

/-- The common shape of the sequential kernels: `pick` is the local algorithm, `better x s`
tells whether the local candidate `x` strictly improves the running value `s`. -/
def select_kernel (pick : List α → Nat) (better : α → α → Bool) (last : Nat)
    (v : LocalView α) (sol : Nat × α) : Nat × α :=
  match deref (local_range v.blocks) (pick (local_range v.blocks)) with
  | some x =>
    if sol.1 = last ∨ better x sol.2 = true then
      (iterator_from_local last v (pick (local_range v.blocks)), x)
    else sol
  | none => sol

/-- A property of a candidate `(p, e)` of a sequence that the fold maintains: it holds of the
local candidates, it places the candidate inside the sequence, and it is preserved by the
update rule of the kernels. -/
structure FoldSpec (pick : List α → Nat) (better : α → α → Bool)
    (Good : List α → Nat → α → Prop) : Prop where
  /-- The local algorithm yields a good candidate on a non-empty local range. -/
  pick_good : ∀ l, l ≠ [] → ∃ e, Good l (pick l) e
  /-- A good candidate is an element of the sequence. -/
  get : ∀ s p e, Good s p e → s[p]? = some e
  /-- A better later candidate replaces the earlier one. -/
  take : ∀ s1 s2 p q e x, Good s1 p e → Good s2 q x → better x e = true →
    Good (s1 ++ s2) (s1.length + q) x
  /-- The earlier candidate stays when the later one is not better. -/
  keep : ∀ s1 s2 p q e x, Good s1 p e → Good s2 q x → better x e = false →
    Good (s1 ++ s2) p e

/-- Invariant of a sequential fold over the part `pre` of the sequence that has been visited:
no candidate while nothing has been seen, a good candidate afterwards. -/
def SeqInv (Good : List α → Nat → α → Prop) (N : Nat) (pre : List α) (sol : Nat × α) : Prop :=
  (pre = [] ∧ sol.1 = N) ∨ Good pre sol.1 sol.2

/-- Two running solutions agree on the position and, unless it is the sentinel, on the value. -/
def SeedRel (N : Nat) (s1 s2 : Nat × α) : Prop :=
  s1.1 = s2.1 ∧ (s1.1 ≠ N → s1.2 = s2.2)

/-- The local algorithm of the maximum side of `minmax_element`. -/
def pick_last_max (comp : α → α → Bool) (l : List α) : Nat := (std.minmax_element comp l).2

/-- Position `p` holds `e` and `e` is less than no element of `s`. -/
def MaxAt (comp : α → α → Bool) (s : List α) (p : Nat) (e : α) : Prop :=
  s[p]? = some e ∧ ∀ x ∈ s, comp e x = false

/-- Local positions the local reduce can work with: none is beyond the local end, and the
first one can be dereferenced unless the local range is empty. -/
def LocalPosOk (len : Nat) (L : List Nat) : Prop :=
  (∀ x ∈ L, x ≤ len) ∧ (len = 0 ∨ ∀ x, L.head? = some x → x < len)

/-- The local position the local reduce of the minimum selects, when the local map applies
`f` to every block; the local end when there is no block. -/
def local_reduce_min_pos (comp : α → α → Bool) (f : List α → Nat) (p : Partition α) : Nat :=
  match std.min_element_chk
      (impl.distributed_parallel_tag.local_min_comp comp (local_range p))
      (local_map p (fun b blk => b + f blk)) with
  | some k => ((local_map p (fun b blk => b + f blk))[k]?).getD (local_range p).length
  | none => (local_range p).length

/-- The local position the local reduce of the maximum selects. -/
def local_reduce_max_pos (comp : α → α → Bool) (f : List α → Nat) (p : Partition α) : Nat :=
  match std.max_element_chk
      (impl.distributed_parallel_tag.local_max_comp comp (local_range p))
      (local_map p (fun b blk => b + f blk)) with
  | some k => ((local_map p (fun b blk => b + f blk))[k]?).getD (local_range p).length
  | none => (local_range p).length

/-- The local solution a parallel kernel builds from the selected local position. -/
def kernel_out (dv : α) (last : Nat) (v : LocalView α) (l : Nat) : Nat × α :=
  (iterator_from_local last v l, (deref (local_range v.blocks) l).getD dv)

/-- Two local positions are interchangeable for the reduce: they are equal, or both can be
dereferenced and hold elements neither of which is less than the other. -/
def LocalEqv (comp : α → α → Bool) (lr : List α) (a b : Nat) : Prop :=
  a = b ∨ ∃ u w, lr[a]? = some u ∧ lr[b]? = some w ∧ comp u w = false ∧ comp w u = false

/-- Two local solutions stand for the same candidate up to ties: both are the sentinel with the
same value, or both are positions of the sequence holding their values, neither value being
less than the other. -/
def GlobalRel (comp : α → α → Bool) (last : Nat) (S : List α) (a b : Nat × α) : Prop :=
  (a.1 = last ∧ b.1 = last ∧ a.2 = b.2) ∨
    (a.1 ≠ last ∧ b.1 ≠ last ∧ S[a.1]? = some a.2 ∧ S[b.1]? = some b.2 ∧
      comp a.2 b.2 = false ∧ comp b.2 a.2 = false)

/-- Two positions of a sequence are both the sentinel `last`, or both hold elements neither of
which is `comp`-less than the other. -/
def SameUpToTies (comp : α → α → Bool) (S : List α) (b m : Nat) : Prop :=
  (b = S.length ∧ m = S.length) ∨
    ∃ x y, S[b]? = some x ∧ S[m]? = some y ∧ comp x y = false ∧ comp y x = false

/-- The local solution of the parallel `min_element` kernel. -/
def par_min_out (dv : α) (comp : α → α → Bool) (last : Nat) (v : LocalView α) : Nat × α :=
  kernel_out dv last v (local_reduce_min_pos comp (std.min_element comp) v.blocks)

/-- The local solution of the parallel `max_element` kernel. -/
def par_max_out (dv : α) (comp : α → α → Bool) (last : Nat) (v : LocalView α) : Nat × α :=
  kernel_out dv last v (local_reduce_max_pos comp (std.max_element comp) v.blocks)

/-- The maximum side of the local solution of the parallel `minmax_element` kernel. -/
def par_minmax_max_out (dv : α) (comp : α → α → Bool) (last : Nat) (v : LocalView α) :
    Nat × α :=
  kernel_out dv last v (local_reduce_max_pos comp (pick_last_max comp) v.blocks)

/-- The local solution of the parallel `minmax_element` kernel. -/
def par_minmax_out (dv : α) (comp : α → α → Bool) (last : Nat) (v : LocalView α) :
    impl.distributed_parallel_tag.sol_t α :=
  ⟨(par_min_out dv comp last v).1, (par_minmax_max_out dv comp last v).1,
    (par_min_out dv comp last v).2, (par_minmax_max_out dv comp last v).2⟩

/-- The comparator on optional values in which an absent value is above every value. -/
def key_comp (comp : α → α → Bool) : Option α → Option α → Bool
  | some u, some w => comp u w
  | some _, none => true
  | none, _ => false

/-- The comparator on positions of a sequence that compares the elements they hold; a
position outside the sequence is above every position inside. -/
def pos_comp (comp : α → α → Bool) (S : List α) (x y : Nat) : Bool :=
  key_comp comp S[x]? S[y]?

/-- The first partition of the range in canonical order holds at least one element. -/
def FirstPartitionNonempty (r : DistributedRange α) : Prop :=
  ∃ p ps, r = p :: ps ∧ local_range p ≠ []

/-- The global position a parallel kernel reports for the segment `e` of the sequence when it
selects the first minimum of the segment. -/
def segment_candidate (comp : α → α → Bool) (last : Nat) (e : Nat × List α) : Nat :=
  if e.2.length = 0 then last else e.1 + std.min_element comp e.2

/-- An entry of the list of local solutions is coherent with the sequence: unless it is `none`
its value is the element at its position. -/
def EntryOk (S : List α) (x : Nat × α) : Prop := x.1 ≠ S.length → S[x.1]? = some x.2

/-- The fold step of a sequential kernel keeps the running solution `sol`: the new solution
`new` is `sol` when the local range `lr` is empty, and when `sol` is not `none` and the local
candidate (the element at the local iterator `cand`) does not improve it, which covers every
tie; and a solution that is not `none` does not become `none`. -/
def FoldStepKeeps (improves : α → α → Bool) (last : Nat) (lr : List α) (cand : Nat)
    (sol new : Nat × α) : Prop :=
  (lr = [] → new = sol) ∧
    (∀ c, lr[cand]? = some c → sol.1 ≠ last → improves c sol.2 = false → new = sol) ∧
    (sol.1 ≠ last → new.1 ≠ last)

/-- Position `p` holds `e`, `e` is less than no element of `s`, and every element strictly
after `p` is less than `e`: the last maximum of `s`. -/
def LastMaxAt (comp : α → α → Bool) (s : List α) (p : Nat) (e : α) : Prop :=
  s[p]? = some e ∧ (∀ x ∈ s, comp e x = false) ∧
    ∀ j x, p < j → s[j]? = some x → comp x e = true

/-- The candidate `(q, e)` is the last maximum of a partition `p` of the visited partitions
`done`, every element of the partitions before `p` is less than `e`, and `e` is less than no
element of the partitions after `p`. -/
def LastMaxEarliest (comp : α → α → Bool) (done : DistributedRange α) (q : Nat) (e : α) :
    Prop :=
  ∃ d1 p d2 j, done = d1 ++ p :: d2 ∧ q = (elements d1).length + j ∧
    LastMaxAt comp (local_range p) j e ∧ (∀ x ∈ elements d1, comp x e = true) ∧
    ∀ x ∈ elements d2, comp e x = false

/-- Invariant of the maximum side of the sequential `minmax_element` fold over the visited
partitions `done`. -/
def LastMaxInv (comp : α → α → Bool) (N : Nat) (done : DistributedRange α) (sol : Nat × α) :
    Prop :=
  (elements done = [] ∧ sol.1 = N) ∨ LastMaxEarliest comp done sol.1 sol.2

/-- Position `q` of the range is the last maximal element inside the earliest partition that
contains a maximal element of the whole sequence: it holds an element `e` that is
`comp`-less than no element, no element of an earlier partition is maximal, and no later
element of its own partition is maximal. -/
def IsLastMaximalOfEarliestPartition (comp : α → α → Bool) (r : DistributedRange α)
    (q : Nat) : Prop :=
  ∃ d1 p d2 j e, r = d1 ++ p :: d2 ∧ q = (elements d1).length + j ∧
    (local_range p)[j]? = some e ∧ (∀ y ∈ elements r, comp e y = false) ∧
    (∀ x ∈ elements d1, ∃ y ∈ elements r, comp x y = true) ∧
    ∀ k x, j < k → (local_range p)[k]? = some x → ∃ y ∈ elements r, comp x y = true

/-- At most one position of the sequence holds a maximal element: the maximum is not tied. -/
def UniqueMaximum (comp : α → α → Bool) (s : List α) : Prop :=
  ∀ (i j : Nat) (a b : α), s[i]? = some a → s[j]? = some b → (∀ y ∈ s, comp a y = false) →
    (∀ y ∈ s, comp b y = false) → i = j

/-! ## `asynchronous_interface.h`

The header declares the dispatch primitives and gives them no body.  The definitions below
state their contract on one handle: what a dispatch attaches to the handle at issue time, and
how completions, in any order, drain it. -/

namespace rt

/-- Modelled from the spec: the failures a dispatch can raise, `InvalidLocality` when the target
does not exist and `SerializationError` when the arguments cannot be transferred (the runtime
that raises them is absent). -/
inductive DispatchError where
  /-- The target locality does not exist. -/
  | InvalidLocality
  /-- The arguments cannot be transferred. -/
  | SerializationError

/-- Modelled from the spec: one invocation of a dispatched function: the locality it runs at
(`Locality` of the absent `locality.h`, as its index in the canonical order), the function
with its arguments, and the iteration index it is given (`0` outside a for-each). -/
structure Invocation (F : Type) where
  /-- Index of the target locality in the canonical order. -/
  loc : Nat
  /-- The dispatched function with its arguments. -/
  func : F
  /-- The iteration index handed to the function. -/
  index : Nat

/-- Modelled from the spec: a `Handle` (absent `handle.h`): the counter of outstanding
operations, with the operations attached to it that are still to complete and those that have
completed, in the order in which their completions were reported. -/
structure Handle (F : Type) where
  /-- The outstanding count. -/
  outstanding : Nat
  /-- The attached operations that have not completed. -/
  pending : List (Invocation F)
  /-- The completions reported so far. -/
  completed : List (Invocation F)

/-- Modelled from the spec: the target system selected by `TargetSystemTag`: a fixed number of
localities, enumerated `0, 1, ...` in the canonical order, and the functions whose arguments
can be transferred (the backends are absent). -/
structure TargetSystem (F : Type) where
  /-- Number of localities. -/
  numLocalities : Nat
  /-- Whether the arguments of a function can be transferred. -/
  transferable : F → Bool

/-- Modelled from the spec: all localities in the canonical order. -/
def allLocalities {F : Type} (sys : TargetSystem F) : List Nat := List.range sys.numLocalities

/-- Issuing one dispatch after the other to the listed localities, on the same handle; the
first failure ends the batch. -/
def dispatch_each {F : Type} (step : Handle F → Nat → Except DispatchError (Handle F)) :
    List Nat → Handle F → Except DispatchError (Handle F)
  | [], handle => Except.ok handle
  | loc :: rest, handle =>
    match step handle loc with
    | Except.ok handle1 => dispatch_each step rest handle1
    | Except.error e => Except.error e

/-- Modelled from the spec: a completion: the pending operation number `k` is acknowledged, its
completion is reported and the outstanding count is decremented; nothing happens when there is
no such operation. -/
def complete {F : Type} (handle : Handle F) (k : Nat) : Handle F :=
  match handle.pending[k]? with
  | some inv =>
    { outstanding := handle.outstanding - 1
      pending := handle.pending.eraseIdx k
      completed := handle.completed ++ [inv] }
  | none => handle

/-- An interleaving of completions: at each step the pending operation of the given number
completes. -/
def run_completions {F : Type} : Handle F → List Nat → Handle F
  | handle, [] => handle
  | handle, k :: ks => run_completions (complete handle k) ks

/-- Modelled from the spec: `wait()` on the handle suspends the caller until the outstanding
count is zero: it returns (the handle as it is) exactly in a drained state, and `none` stands
for a caller that is still suspended. -/
def waitForCompletion {F : Type} (handle : Handle F) : Option (Handle F) :=
  if handle.outstanding = 0 then some handle else none

namespace impl

namespace AsynchronousInterface

/-- Modelled from the spec: `asyncExecuteAt(handle, loc, func, args)`: fire-and-forget dispatch
of `func(args)` at `loc`, attached to `handle`: the outstanding count is incremented at issue
time.  It fails with `InvalidLocality` if the target does not exist and with
`SerializationError` if the arguments cannot be transferred. -/
def asyncExecuteAt {F : Type} (sys : TargetSystem F) (handle : Handle F) (loc : Nat)
    (func : F) : Except DispatchError (Handle F) :=
  if loc < sys.numLocalities then
    if sys.transferable func = true then
      Except.ok { handle with
        outstanding := handle.outstanding + 1
        pending := handle.pending ++ [⟨loc, func, 0⟩] }
    else Except.error DispatchError.SerializationError
  else Except.error DispatchError.InvalidLocality

/-- Modelled from the spec: `asyncExecuteOnAll(handle, func, args)`: issuing `asyncExecuteAt` to
every locality in canonical order, all attached to the one handle. -/
def asyncExecuteOnAll {F : Type} (sys : TargetSystem F) (handle : Handle F) (func : F) :
    Except DispatchError (Handle F) :=
  dispatch_each (fun h loc => asyncExecuteAt sys h loc func) (allLocalities sys) handle

/-- Modelled from the spec: `asyncForEachAt(handle, loc, func, args, numIters)`: `numIters`
independent invocations at one locality, each given an index in `[0, numIters)`, all attached
to `handle` at issue time. -/
def asyncForEachAt {F : Type} (sys : TargetSystem F) (handle : Handle F) (loc : Nat)
    (func : F) (numIters : Nat) : Except DispatchError (Handle F) :=
  if loc < sys.numLocalities then
    if sys.transferable func = true then
      Except.ok { handle with
        outstanding := handle.outstanding + numIters
        pending := handle.pending ++ (List.range numIters).map (fun i => ⟨loc, func, i⟩) }
    else Except.error DispatchError.SerializationError
  else Except.error DispatchError.InvalidLocality

/-- Modelled from the spec: `asyncForEachOnAll(handle, func, args, numIters)`: the cross product
of `asyncForEachAt` over every locality. -/
def asyncForEachOnAll {F : Type} (sys : TargetSystem F) (handle : Handle F) (func : F)
    (numIters : Nat) : Except DispatchError (Handle F) :=
  dispatch_each (fun h loc => asyncForEachAt sys h loc func numIters) (allLocalities sys) handle

end AsynchronousInterface

end impl

end rt

/-- The outstanding count is the number of pending operations, and the reported completions
together with the pending operations are the issued operations. -/
def Accounted {F : Type} (issued : List (rt.Invocation F)) (handle : rt.Handle F) : Prop :=
  handle.outstanding = handle.pending.length ∧
    List.Perm (handle.completed ++ handle.pending) issued

/-- The invocations `asyncForEachAt` issues at one locality. -/
def for_each_invocations {F : Type} (func : F) (numIters : Nat) (loc : Nat) :
    List (rt.Invocation F) :=
  (List.range numIters).map (fun i => ⟨loc, func, i⟩)

/-- A target system of five localities on which every function can be dispatched. -/
def five_localities : rt.TargetSystem Unit := ⟨5, fun _ => true⟩

/-! ## Strict weak orders -/

theorem StrictWeakOrder.asymm {comp : α → α → Bool} (h : StrictWeakOrder comp) (a b : α)
    (hab : comp a b = true) : comp b a = false := by
  cases hba : comp b a with
  | false => rfl
  | true =>
    have := h.trans a b a hab hba
    rw [h.irrefl a] at this
    exact absurd this (by decide)

theorem StrictWeakOrder.neg_trans {comp : α → α → Bool} (h : StrictWeakOrder comp) (a b c : α)
    (hab : comp a b = false) (hbc : comp b c = false) : comp a c = false := by
  cases hac : comp a c with
  | false => rfl
  | true =>
    cases hba : comp b a with
    | true =>
      have := h.trans b a c hba hac
      rw [hbc] at this
      exact absurd this (by decide)
    | false =>
      cases hcb : comp c b with
      | true =>
        have := h.trans a c b hac hcb
        rw [hab] at this
        exact absurd this (by decide)
      | false =>
        have := (h.equiv_trans a b c hab hba hbc hcb).1
        rw [hac] at this
        exact this

theorem StrictWeakOrder.flip {comp : α → α → Bool} (h : StrictWeakOrder comp) :
    StrictWeakOrder (fun a b => comp b a) where
  irrefl := h.irrefl
  trans := fun a b c hab hbc => h.trans c b a hbc hab
  equiv_trans := fun a b c hab hba hbc hcb =>
    ⟨(h.equiv_trans a b c hba hab hcb hbc).2, (h.equiv_trans a b c hba hab hcb hbc).1⟩

theorem strictWeakOrder_ltN : StrictWeakOrder ltN where
  irrefl := by intro a; simp [ltN]
  trans := by
    intro a b c hab hbc
    simp only [ltN, decide_eq_true_eq] at *
    omega
  equiv_trans := by
    intro a b c hab hba hbc hcb
    simp only [ltN, decide_eq_false_iff_not] at *
    omega

theorem strictWeakOrder_ltZ : StrictWeakOrder ltZ where
  irrefl := by intro a; simp [ltZ]
  trans := by
    intro a b c hab hbc
    simp only [ltZ, decide_eq_true_eq] at *
    omega
  equiv_trans := by
    intro a b c hab hba hbc hcb
    simp only [ltZ, decide_eq_false_iff_not] at *
    omega

/-! ## First minimum of a list -/

theorem FirstMinAt.lt_length {comp : α → α → Bool} {s : List α} {p : Nat} {e : α}
    (h : FirstMinAt comp s p e) : p < s.length := by
  have h1 := h.1
  by_contra hp
  rw [List.getElem?_eq_none (by omega)] at h1
  exact Option.noConfusion h1

theorem firstMinAt_singleton {comp : α → α → Bool} (hc : StrictWeakOrder comp) (x : α) :
    FirstMinAt comp [x] 0 x := by
  refine ⟨rfl, ?_, ?_⟩
  · intro y hy
    rw [List.mem_singleton] at hy
    rw [hy]
    exact hc.irrefl x
  · intro j y hj
    omega

/-- The earlier candidate stays when nothing in the appended part is less than it. -/
theorem FirstMinAt.append_keep {comp : α → α → Bool} {s1 s2 : List α} {p : Nat} {e : α}
    (h : FirstMinAt comp s1 p e) (h2 : ∀ x ∈ s2, comp x e = false) :
    FirstMinAt comp (s1 ++ s2) p e := by
  have hp := h.lt_length
  refine ⟨?_, ?_, ?_⟩
  · rw [List.getElem?_append_left hp]
    exact h.1
  · intro x hx
    rcases List.mem_append.1 hx with hx | hx
    · exact h.2.1 x hx
    · exact h2 x hx
  · intro j x hj hjx
    rw [List.getElem?_append_left (by omega)] at hjx
    exact h.2.2 j x hj hjx

/-- The candidate of the appended part wins when it is less than everything before. -/
theorem FirstMinAt.append_take {comp : α → α → Bool} (hc : StrictWeakOrder comp)
    {s1 s2 : List α} {q : Nat} {x : α}
    (h1 : ∀ y ∈ s1, comp x y = true) (h : FirstMinAt comp s2 q x) :
    FirstMinAt comp (s1 ++ s2) (s1.length + q) x := by
  refine ⟨?_, ?_, ?_⟩
  · rw [List.getElem?_append_right (by omega)]
    simpa using h.1
  · intro y hy
    rcases List.mem_append.1 hy with hy | hy
    · exact hc.asymm x y (h1 y hy)
    · exact h.2.1 y hy
  · intro j y hj hjy
    by_cases hlt : j < s1.length
    · rw [List.getElem?_append_left hlt] at hjy
      exact h1 y (List.getElem?_mem hjy)
    · rw [List.getElem?_append_right (by omega)] at hjy
      exact h.2.2 (j - s1.length) y (by omega) hjy

/-- Merging two first minima: the later one wins exactly when it is strictly less. -/
theorem FirstMinAt.merge {comp : α → α → Bool} (hc : StrictWeakOrder comp)
    {s1 s2 : List α} {p q : Nat} {e x : α}
    (h1 : FirstMinAt comp s1 p e) (h2 : FirstMinAt comp s2 q x) :
    (comp x e = true → FirstMinAt comp (s1 ++ s2) (s1.length + q) x) ∧
    (comp x e = false → FirstMinAt comp (s1 ++ s2) p e) := by
  constructor
  · intro hxe
    refine FirstMinAt.append_take hc ?_ h2
    intro y hy
    cases hxy : comp x y with
    | true => rfl
    | false =>
      have := hc.neg_trans x y e hxy (h1.2.1 y hy)
      rw [hxe] at this
      exact absurd this (by decide)
  · intro hxe
    refine h1.append_keep ?_
    intro z hz
    exact hc.neg_trans z x e (h2.2.1 z hz) hxe

theorem min_element_loop_spec {comp : α → α → Bool} (hc : StrictWeakOrder comp) :
    ∀ (rest pre : List α) (smallest : Nat) (sv : α), FirstMinAt comp pre smallest sv →
      ∃ e, FirstMinAt comp (pre ++ rest)
        (std.min_element_loop comp rest pre.length smallest sv) e := by
  intro rest
  induction rest with
  | nil =>
    intro pre smallest sv h
    exact ⟨sv, by simpa [std.min_element_loop] using h⟩
  | cons x rest ih =>
    intro pre smallest sv h
    have hm := FirstMinAt.merge hc h (firstMinAt_singleton hc x)
    rw [std.min_element_loop]
    cases hx : comp x sv with
    | true =>
      have := ih (pre ++ [x]) pre.length x (by simpa using hm.1 hx)
      simpa using this
    | false =>
      have := ih (pre ++ [x]) smallest sv (hm.2 hx)
      simpa using this

/-- On a non-empty list `std::min_element` returns the first minimum. -/
theorem min_element_spec {comp : α → α → Bool} (hc : StrictWeakOrder comp) (l : List α)
    (hl : l ≠ []) : ∃ e, FirstMinAt comp l (std.min_element comp l) e := by
  cases l with
  | nil => exact absurd rfl hl
  | cons x rest =>
    have := min_element_loop_spec hc rest [x] 0 x (firstMinAt_singleton hc x)
    simpa [std.min_element] using this

theorem max_element_loop_eq_min (comp : α → α → Bool) :
    ∀ (rest : List α) (i largest : Nat) (lv : α),
      std.max_element_loop comp rest i largest lv =
        std.min_element_loop (fun a b => comp b a) rest i largest lv := by
  intro rest
  induction rest with
  | nil => intro i largest lv; rfl
  | cons x rest ih =>
    intro i largest lv
    simp only [std.max_element_loop, std.min_element_loop, ih]

/-- The algorithm `std::max_element` is `std::min_element` for the converse comparator. -/
theorem max_element_eq_min (comp : α → α → Bool) (l : List α) :
    std.max_element comp l = std.min_element (fun a b => comp b a) l := by
  cases l with
  | nil => rfl
  | cons x rest => exact max_element_loop_eq_min comp rest 1 0 x

/-! ## The sequential fold -/

theorem elements_cons (p : Partition α) (ps : DistributedRange α) :
    elements (p :: ps) = local_range p ++ elements ps := by
  simp [elements]

theorem seq_min_kernel_eq_select (comp : α → α → Bool) (N : Nat) (v : LocalView α)
    (sol : Nat × α) :
    impl.distributed_sequential_tag.min_element_kernel comp N v sol =
      select_kernel (std.min_element comp) comp N v sol := rfl

theorem seq_max_kernel_eq_select (comp : α → α → Bool) (N : Nat) (v : LocalView α)
    (sol : Nat × α) :
    impl.distributed_sequential_tag.max_element_kernel comp N v sol =
      select_kernel (std.max_element comp) (fun x s => comp s x) N v sol := rfl

theorem lt_length_of_getElem? {s : List α} {p : Nat} {e : α} (h : s[p]? = some e) :
    p < s.length := by
  by_contra hp
  rw [List.getElem?_eq_none (by omega)] at h
  exact Option.noConfusion h

theorem select_kernel_inv {pick : List α → Nat} {better : α → α → Bool}
    {Good : List α → Nat → α → Prop} (hs : FoldSpec pick better Good) (N : Nat)
    (pre : List α) (blocks : Partition α) (sol : Nat × α)
    (hN : pre.length + (local_range blocks).length ≤ N) (h : SeqInv Good N pre sol) :
    SeqInv Good N (pre ++ local_range blocks)
      (select_kernel pick better N ⟨pre.length, blocks⟩ sol) := by
  unfold select_kernel
  by_cases hl : local_range blocks = []
  · have hnone : deref (local_range blocks) (pick (local_range blocks)) = none := by
      simp [hl, deref]
    simp only [hnone, hl, List.append_nil]
    exact h
  · obtain ⟨e, he⟩ := hs.pick_good (local_range blocks) hl
    have hget := hs.get _ _ _ he
    have hlt := lt_length_of_getElem? hget
    have hit : iterator_from_local N ⟨pre.length, blocks⟩ (pick (local_range blocks)) =
        pre.length + pick (local_range blocks) := by
      unfold iterator_from_local
      exact if_neg (Nat.ne_of_lt hlt)
    simp only [deref, hget, hit]
    rcases h with ⟨hpre, hsol⟩ | h
    · rw [if_pos (Or.inl hsol)]
      right
      subst hpre
      simpa using he
    · have hp := lt_length_of_getElem? (hs.get _ _ _ h)
      cases hx : better e sol.2 with
      | true =>
        rw [if_pos (Or.inr rfl)]
        exact Or.inr (hs.take _ _ _ _ _ _ h he hx)
      | false =>
        rw [if_neg (by
          intro hor
          rcases hor with h1 | h1
          · omega
          · exact absurd h1 (by decide))]
        exact Or.inr (hs.keep _ _ _ _ _ _ h he hx)

theorem select_fold_inv {pick : List α → Nat} {better : α → α → Bool}
    {Good : List α → Nat → α → Prop} (hs : FoldSpec pick better Good) (N : Nat) :
    ∀ (todo : DistributedRange α) (pre : List α) (sol : Nat × α),
      pre.length + (elements todo).length ≤ N → SeqInv Good N pre sol →
      SeqInv Good N (pre ++ elements todo)
        ((localities_from pre.length todo).foldl
          (fun s v => select_kernel pick better N v s) sol) := by
  intro todo
  induction todo with
  | nil =>
    intro pre sol _ h
    simpa [elements, localities_from] using h
  | cons p ps ih =>
    intro pre sol hN h
    rw [elements_cons] at hN
    simp only [List.length_append] at hN
    have hk := select_kernel_inv hs N pre p sol (by omega) h
    have := ih (pre ++ local_range p) _ (by simp only [List.length_append]; omega) hk
    simpa [elements_cons, localities_from] using this

/-- A sequential fold over a whole non-empty range ends with a good candidate. -/
theorem select_fold_good {pick : List α → Nat} {better : α → α → Bool}
    {Good : List α → Nat → α → Prop} (hs : FoldSpec pick better Good) (dv : α)
    (r : DistributedRange α) (hne : elements r ≠ []) :
    ∃ e, Good (elements r)
      (distributed_folding_map r (select_kernel pick better (range_last r))
        (range_last r, dv)).1 e := by
  have := select_fold_inv hs (range_last r) r [] (range_last r, dv)
    (by simp [range_last]) (Or.inl ⟨rfl, rfl⟩)
  simp only [List.nil_append, List.length_nil] at this
  rcases this with ⟨h0, _⟩ | h
  · exact absurd h0 hne
  · exact ⟨_, h⟩

theorem range_last_ne_zero {r : DistributedRange α} (hne : elements r ≠ []) :
    0 ≠ range_last r := by
  unfold range_last
  intro h0
  exact hne (List.length_eq_zero.1 h0.symm)

theorem foldSpec_min {comp : α → α → Bool} (hc : StrictWeakOrder comp) :
    FoldSpec (std.min_element comp) comp (FirstMinAt comp) where
  pick_good := min_element_spec hc
  get := fun _ _ _ h => h.1
  take := fun _ _ _ _ _ _ h1 h2 hx => (FirstMinAt.merge hc h1 h2).1 hx
  keep := fun _ _ _ _ _ _ h1 h2 hx => (FirstMinAt.merge hc h1 h2).2 hx

/-- The sequential `min_element` returns the first minimum of a non-empty sequence. -/
theorem seq_min_element_firstMin {comp : α → α → Bool} (hc : StrictWeakOrder comp) (dv : α)
    (r : DistributedRange α) (hne : elements r ≠ []) :
    ∃ e, FirstMinAt comp (elements r)
      (impl.distributed_sequential_tag.min_element dv comp r) e := by
  have h := select_fold_good (foldSpec_min hc) dv r hne
  simp only [impl.distributed_sequential_tag.min_element, if_neg (range_last_ne_zero hne)]
  exact h

theorem seq_max_kernel_eq_min (comp : α → α → Bool) (N : Nat) (v : LocalView α)
    (sol : Nat × α) :
    impl.distributed_sequential_tag.max_element_kernel comp N v sol =
      impl.distributed_sequential_tag.min_element_kernel (fun a b => comp b a) N v sol := by
  simp only [impl.distributed_sequential_tag.max_element_kernel,
    impl.distributed_sequential_tag.min_element_kernel, max_element_eq_min]

/-- The sequential `max_element` is the sequential `min_element` of the converse comparator. -/
theorem seq_max_element_eq_min (dv : α) (comp : α → α → Bool) (r : DistributedRange α) :
    impl.distributed_sequential_tag.max_element dv comp r =
      impl.distributed_sequential_tag.min_element dv (fun a b => comp b a) r := by
  simp only [impl.distributed_sequential_tag.max_element,
    impl.distributed_sequential_tag.min_element, distributed_folding_map,
    seq_max_kernel_eq_min]

theorem isEarliestMinimal_of_firstMinAt {comp : α → α → Bool} {s : List α} {p : Nat} {e : α}
    (h : FirstMinAt comp s p e) : IsEarliestMinimal comp s p := by
  refine ⟨⟨e, h.1, h.2.1⟩, ?_⟩
  intro j x hj hjx
  exact ⟨e, List.getElem?_mem h.1, h.2.2 j x hj hjx⟩

theorem isEarliestMaximal_of_firstMinAt {comp : α → α → Bool} {s : List α} {p : Nat} {e : α}
    (h : FirstMinAt (fun a b => comp b a) s p e) : IsEarliestMaximal comp s p := by
  refine ⟨⟨e, h.1, h.2.1⟩, ?_⟩
  intro j x hj hjx
  exact ⟨e, List.getElem?_mem h.1, h.2.2 j x hj hjx⟩

/-! ## Independence of the sequential fold from the seed value -/

theorem select_kernel_seedRel (pick : List α → Nat) (better : α → α → Bool) (N : Nat)
    (v : LocalView α) (s1 s2 : Nat × α) (h : SeedRel N s1 s2) :
    SeedRel N (select_kernel pick better N v s1) (select_kernel pick better N v s2) := by
  unfold select_kernel
  cases hd : deref (local_range v.blocks) (pick (local_range v.blocks)) with
  | none => exact h
  | some x =>
    simp only []
    by_cases h1 : s1.1 = N
    · have h2 : s2.1 = N := by rw [← h.1]; exact h1
      rw [if_pos (Or.inl h1), if_pos (Or.inl h2)]
      exact ⟨rfl, fun _ => rfl⟩
    · have h2 : s2.1 ≠ N := by rw [← h.1]; exact h1
      have hv := h.2 h1
      by_cases hb : better x s1.2 = true
      · rw [if_pos (Or.inr hb), if_pos (Or.inr (hv ▸ hb))]
        exact ⟨rfl, fun _ => rfl⟩
      · have hb2 : ¬ better x s2.2 = true := hv ▸ hb
        rw [if_neg (by rintro (h3 | h3); exact h1 h3; exact hb h3),
          if_neg (by rintro (h3 | h3); exact h2 h3; exact hb2 h3)]
        exact h

theorem select_fold_seedRel (pick : List α → Nat) (better : α → α → Bool) (N : Nat) :
    ∀ (views : List (LocalView α)) (s1 s2 : Nat × α), SeedRel N s1 s2 →
      SeedRel N (views.foldl (fun s v => select_kernel pick better N v s) s1)
        (views.foldl (fun s v => select_kernel pick better N v s) s2) := by
  intro views
  induction views with
  | nil => intro s1 s2 h; exact h
  | cons v vs ih =>
    intro s1 s2 h
    exact ih _ _ (select_kernel_seedRel pick better N v s1 s2 h)

/-- The position a sequential fold ends with does not depend on the seed value. -/
theorem select_fold_seed (pick : List α → Nat) (better : α → α → Bool) (d1 d2 : α)
    (r : DistributedRange α) :
    (distributed_folding_map r (select_kernel pick better (range_last r))
        (range_last r, d1)).1 =
      (distributed_folding_map r (select_kernel pick better (range_last r))
        (range_last r, d2)).1 :=
  (select_fold_seedRel pick better (range_last r) (localities r) (range_last r, d1)
    (range_last r, d2) ⟨rfl, fun h => absurd rfl h⟩).1

/-! ## The sequential `minmax_element` as two independent folds -/

theorem minmax_loop_fst (comp : α → α → Bool) :
    ∀ (rest : List α) (i : Nat) (mn mx : Nat × α),
      (std.minmax_element_loop comp rest i mn mx).1 =
        std.min_element_loop comp rest i mn.1 mn.2 := by
  intro rest
  induction rest with
  | nil => intro i mn mx; rfl
  | cons x rest ih =>
    intro i mn mx
    rw [std.minmax_element_loop, std.min_element_loop, ih]
    cases comp x mn.2 <;> rfl

/-- The first component of `std::minmax_element` is the result of `std::min_element`. -/
theorem minmax_fst (comp : α → α → Bool) (l : List α) :
    (std.minmax_element comp l).1 = std.min_element comp l := by
  cases l with
  | nil => rfl
  | cons x rest => exact minmax_loop_fst comp rest 1 (0, x) (0, x)

theorem seq_minmax_kernel_split (comp : α → α → Bool) (N : Nat) (v : LocalView α)
    (s : impl.distributed_sequential_tag.sol_t α) :
    impl.distributed_sequential_tag.minmax_element_kernel comp N v s =
      ⟨(select_kernel (std.min_element comp) comp N v (s.min, s.min_val)).1,
       (select_kernel (pick_last_max comp) (fun x m => comp m x) N v (s.max, s.max_val)).1,
       (select_kernel (std.min_element comp) comp N v (s.min, s.min_val)).2,
       (select_kernel (pick_last_max comp) (fun x m => comp m x) N v (s.max, s.max_val)).2⟩ := by
  unfold impl.distributed_sequential_tag.minmax_element_kernel select_kernel pick_last_max
  simp only [minmax_fst]
  cases deref (local_range v.blocks) (std.min_element comp (local_range v.blocks)) <;>
    cases deref (local_range v.blocks) (std.minmax_element comp (local_range v.blocks)).2 <;>
    simp only [] <;> split_ifs <;> rfl

theorem seq_minmax_fold_split (comp : α → α → Bool) (N : Nat) :
    ∀ (views : List (LocalView α)) (s : impl.distributed_sequential_tag.sol_t α),
      views.foldl (fun s v => impl.distributed_sequential_tag.minmax_element_kernel comp N v s) s =
        ⟨(views.foldl (fun s v => select_kernel (std.min_element comp) comp N v s)
            (s.min, s.min_val)).1,
         (views.foldl (fun s v => select_kernel (pick_last_max comp) (fun x m => comp m x) N v s)
            (s.max, s.max_val)).1,
         (views.foldl (fun s v => select_kernel (std.min_element comp) comp N v s)
            (s.min, s.min_val)).2,
         (views.foldl (fun s v => select_kernel (pick_last_max comp) (fun x m => comp m x) N v s)
            (s.max, s.max_val)).2⟩ := by
  intro views
  induction views with
  | nil => intro s; rfl
  | cons v vs ih =>
    intro s
    simp only [List.foldl_cons]
    rw [ih, seq_minmax_kernel_split]

/-- The sequential `minmax_element` on a non-empty range: the minimum side is the fold of
`min_element`, the maximum side the fold that picks the last largest element locally. -/
theorem seq_minmax_element_eq (dv : α) (comp : α → α → Bool) (r : DistributedRange α)
    (hne : elements r ≠ []) :
    impl.distributed_sequential_tag.minmax_element dv comp r =
      (impl.distributed_sequential_tag.min_element dv comp r,
       (distributed_folding_map r
         (select_kernel (pick_last_max comp) (fun x m => comp m x) (range_last r))
         (range_last r, dv)).1) := by
  simp only [impl.distributed_sequential_tag.minmax_element,
    impl.distributed_sequential_tag.min_element, if_neg (range_last_ne_zero hne),
    distributed_folding_map, seq_minmax_fold_split]
  rfl

/-! ## Maximal elements -/

theorem MaxAt.take {comp : α → α → Bool} (hc : StrictWeakOrder comp) {s1 s2 : List α}
    {p q : Nat} {e x : α} (h1 : MaxAt comp s1 p e) (h2 : MaxAt comp s2 q x)
    (hx : comp x e = false) : MaxAt comp (s1 ++ s2) (s1.length + q) x := by
  refine ⟨?_, ?_⟩
  · rw [List.getElem?_append_right (by omega)]
    simpa using h2.1
  · intro y hy
    rcases List.mem_append.1 hy with hy | hy
    · exact hc.neg_trans x e y hx (h1.2 y hy)
    · exact h2.2 y hy

theorem MaxAt.keep {comp : α → α → Bool} (hc : StrictWeakOrder comp) {s1 s2 : List α}
    {p q : Nat} {e x : α} (h1 : MaxAt comp s1 p e) (h2 : MaxAt comp s2 q x)
    (hx : comp e x = false) : MaxAt comp (s1 ++ s2) p e := by
  refine ⟨?_, ?_⟩
  · rw [List.getElem?_append_left (lt_length_of_getElem? h1.1)]
    exact h1.1
  · intro y hy
    rcases List.mem_append.1 hy with hy | hy
    · exact h1.2 y hy
    · exact hc.neg_trans e x y hx (h2.2 y hy)

theorem maxAt_singleton {comp : α → α → Bool} (hc : StrictWeakOrder comp) (x : α) :
    MaxAt comp [x] 0 x := by
  refine ⟨rfl, ?_⟩
  intro y hy
  rw [List.mem_singleton] at hy
  rw [hy]
  exact hc.irrefl x

theorem minmax_loop_snd_spec {comp : α → α → Bool} (hc : StrictWeakOrder comp) :
    ∀ (rest pre : List α) (mn mx : Nat × α), MaxAt comp pre mx.1 mx.2 →
      ∃ e, MaxAt comp (pre ++ rest)
        (std.minmax_element_loop comp rest pre.length mn mx).2 e := by
  intro rest
  induction rest with
  | nil =>
    intro pre mn mx h
    exact ⟨mx.2, by simpa [std.minmax_element_loop] using h⟩
  | cons x rest ih =>
    intro pre mn mx h
    rw [std.minmax_element_loop]
    cases hx : comp x mx.2 with
    | true =>
      have hk : MaxAt comp (pre ++ [x]) mx.1 mx.2 :=
        MaxAt.keep hc h (maxAt_singleton hc x) (hc.asymm x mx.2 hx)
      have := ih (pre ++ [x]) (if comp x mn.2 then (pre.length, x) else mn) mx hk
      simpa using this
    | false =>
      have hk : MaxAt comp (pre ++ [x]) (pre.length + 0) x :=
        MaxAt.take hc h (maxAt_singleton hc x) hx
      have := ih (pre ++ [x]) (if comp x mn.2 then (pre.length, x) else mn) (pre.length, x)
        (by simpa using hk)
      simpa using this

/-- On a non-empty list the second component of `std::minmax_element` is a maximal element. -/
theorem pick_last_max_spec {comp : α → α → Bool} (hc : StrictWeakOrder comp) (l : List α)
    (hl : l ≠ []) : ∃ e, MaxAt comp l (pick_last_max comp l) e := by
  cases l with
  | nil => exact absurd rfl hl
  | cons x rest =>
    have := minmax_loop_snd_spec hc rest [x] (0, x) (0, x) (maxAt_singleton hc x)
    simpa [pick_last_max, std.minmax_element] using this

theorem foldSpec_last_max {comp : α → α → Bool} (hc : StrictWeakOrder comp) :
    FoldSpec (pick_last_max comp) (fun x m => comp m x) (MaxAt comp) where
  pick_good := pick_last_max_spec hc
  get := fun _ _ _ h => h.1
  take := fun _ _ _ _ e x h1 h2 hx => MaxAt.take hc h1 h2 (hc.asymm e x hx)
  keep := fun _ _ _ _ _ _ h1 h2 hx => MaxAt.keep hc h1 h2 hx

/-- The maximum side of the sequential `minmax_element` is a maximal element of a non-empty
sequence. -/
theorem seq_minmax_element_snd_maxAt {comp : α → α → Bool} (hc : StrictWeakOrder comp)
    (dv : α) (r : DistributedRange α) (hne : elements r ≠ []) :
    ∃ e, MaxAt comp (elements r)
      (impl.distributed_sequential_tag.minmax_element dv comp r).2 e := by
  rw [seq_minmax_element_eq dv comp r hne]
  exact select_fold_good (foldSpec_last_max hc) dv r hne

/-- The sequential `max_element` returns a maximal element of a non-empty sequence. -/
theorem seq_max_element_maxAt {comp : α → α → Bool} (hc : StrictWeakOrder comp)
    (dv : α) (r : DistributedRange α) (hne : elements r ≠ []) :
    ∃ e, MaxAt comp (elements r) (impl.distributed_sequential_tag.max_element dv comp r) e := by
  rw [seq_max_element_eq_min]
  obtain ⟨e, he⟩ := seq_min_element_firstMin hc.flip dv r hne
  exact ⟨e, he.1, he.2.1⟩

/-! ## Relating two runs of the standard algorithms -/

theorem min_chk_loop_rel {β1 β2 : Type} (R : β1 → β2 → Prop)
    (c1 : β1 → β1 → Option Bool) (c2 : β2 → β2 → Option Bool)
    (hcong : ∀ x1 x2 y1 y2, R x1 x2 → R y1 y2 → c1 x1 y1 = c2 x2 y2) :
    ∀ (l1 : List β1) (l2 : List β2), List.Forall₂ R l1 l2 →
      ∀ (i s : Nat) (v1 : β1) (v2 : β2), R v1 v2 →
        std.min_element_chk_loop c1 l1 i s v1 = std.min_element_chk_loop c2 l2 i s v2 := by
  intro l1 l2 h
  induction h with
  | nil => intro i s v1 v2 _; rfl
  | cons hxy _ ih =>
    intro i s v1 v2 hv
    rw [std.min_element_chk_loop, std.min_element_chk_loop, hcong _ _ _ _ hxy hv]
    rw [ih (i + 1) i _ _ hxy, ih (i + 1) s _ _ hv]

/-- Two runs of `std::min_element` over pointwise related ranges, with comparators that agree
on related arguments, return the same iterator. -/
theorem min_chk_rel {β1 β2 : Type} (R : β1 → β2 → Prop)
    (c1 : β1 → β1 → Option Bool) (c2 : β2 → β2 → Option Bool)
    (hcong : ∀ x1 x2 y1 y2, R x1 x2 → R y1 y2 → c1 x1 y1 = c2 x2 y2)
    (l1 : List β1) (l2 : List β2) (h : List.Forall₂ R l1 l2) :
    std.min_element_chk c1 l1 = std.min_element_chk c2 l2 := by
  cases h with
  | nil => rfl
  | cons hxy ht => exact min_chk_loop_rel R c1 c2 hcong _ _ ht 1 0 _ _ hxy

theorem max_chk_loop_eq_min {β : Type} (c : β → β → Option Bool) :
    ∀ (rest : List β) (i largest : Nat) (lv : β),
      std.max_element_chk_loop c rest i largest lv =
        std.min_element_chk_loop (fun a b => c b a) rest i largest lv := by
  intro rest
  induction rest with
  | nil => intro i largest lv; rfl
  | cons x rest ih =>
    intro i largest lv
    simp only [std.max_element_chk_loop, std.min_element_chk_loop, ih]

theorem max_chk_eq_min {β : Type} (c : β → β → Option Bool) (l : List β) :
    std.max_element_chk c l = std.min_element_chk (fun a b => c b a) l := by
  cases l with
  | nil => rfl
  | cons x rest => exact max_chk_loop_eq_min c rest 1 0 x

theorem max_chk_rel {β1 β2 : Type} (R : β1 → β2 → Prop)
    (c1 : β1 → β1 → Option Bool) (c2 : β2 → β2 → Option Bool)
    (hcong : ∀ x1 x2 y1 y2, R x1 x2 → R y1 y2 → c1 x1 y1 = c2 x2 y2)
    (l1 : List β1) (l2 : List β2) (h : List.Forall₂ R l1 l2) :
    std.max_element_chk c1 l1 = std.max_element_chk c2 l2 := by
  rw [max_chk_eq_min, max_chk_eq_min]
  exact min_chk_rel R _ _ (fun x1 x2 y1 y2 hx hy => hcong y1 y2 x1 x2 hy hx) l1 l2 h

theorem min_chk_loop_some {β : Type} (c : β → β → Bool) :
    ∀ (rest : List β) (i s : Nat) (sv : β),
      std.min_element_chk_loop (fun a b => some (c a b)) rest i s sv =
        some (std.min_element_loop c rest i s sv) := by
  intro rest
  induction rest with
  | nil => intro i s sv; rfl
  | cons x rest ih =>
    intro i s sv
    rw [std.min_element_chk_loop, std.min_element_loop]
    cases c x sv <;> simp [ih]

/-- A comparator that never fails makes the checked algorithm agree with the plain one. -/
theorem min_chk_some {β : Type} (c : β → β → Bool) (l : List β) :
    std.min_element_chk (fun a b => some (c a b)) l = some (std.min_element c l) := by
  cases l with
  | nil => rfl
  | cons x rest => exact min_chk_loop_some c rest 1 0 x

theorem min_element_rel {β1 β2 : Type} (R : β1 → β2 → Prop)
    (c1 : β1 → β1 → Bool) (c2 : β2 → β2 → Bool)
    (hcong : ∀ x1 x2 y1 y2, R x1 x2 → R y1 y2 → c1 x1 y1 = c2 x2 y2)
    (l1 : List β1) (l2 : List β2) (h : List.Forall₂ R l1 l2) :
    std.min_element c1 l1 = std.min_element c2 l2 := by
  have := min_chk_rel R (fun a b => some (c1 a b)) (fun a b => some (c2 a b))
    (fun x1 x2 y1 y2 hx hy => congrArg some (hcong x1 x2 y1 y2 hx hy)) l1 l2 h
  rw [min_chk_some, min_chk_some] at this
  exact Option.some.inj this

theorem max_element_rel {β1 β2 : Type} (R : β1 → β2 → Prop)
    (c1 : β1 → β1 → Bool) (c2 : β2 → β2 → Bool)
    (hcong : ∀ x1 x2 y1 y2, R x1 x2 → R y1 y2 → c1 x1 y1 = c2 x2 y2)
    (l1 : List β1) (l2 : List β2) (h : List.Forall₂ R l1 l2) :
    std.max_element c1 l1 = std.max_element c2 l2 := by
  rw [max_element_eq_min, max_element_eq_min]
  exact min_element_rel R _ _ (fun x1 x2 y1 y2 hx hy => hcong y1 y2 x1 x2 hy hx) l1 l2 h

/-! ## Bounds on the iterators the standard algorithms return -/

theorem min_element_loop_lt {β : Type} (c : β → β → Bool) :
    ∀ (rest : List β) (i s : Nat) (sv : β), s < i →
      std.min_element_loop c rest i s sv < i + rest.length := by
  intro rest
  induction rest with
  | nil => intro i s sv h; simpa [std.min_element_loop] using h
  | cons x rest ih =>
    intro i s sv h
    rw [std.min_element_loop]
    split_ifs
    · have := ih (i + 1) i x (by omega)
      simp only [List.length_cons]
      omega
    · have := ih (i + 1) s sv (by omega)
      simp only [List.length_cons]
      omega

/-- On a non-empty range `std::min_element` returns a dereferenceable iterator. -/
theorem min_element_lt {β : Type} (c : β → β → Bool) (l : List β) (hl : l ≠ []) :
    std.min_element c l < l.length := by
  cases l with
  | nil => exact absurd rfl hl
  | cons x rest =>
    have := min_element_loop_lt c rest 1 0 x (by omega)
    simp only [List.length_cons, std.min_element]
    omega

theorem max_element_lt {β : Type} (c : β → β → Bool) (l : List β) (hl : l ≠ []) :
    std.max_element c l < l.length := by
  rw [max_element_eq_min]
  exact min_element_lt _ l hl

theorem minmax_loop_snd_lt {β : Type} (c : β → β → Bool) :
    ∀ (rest : List β) (i : Nat) (mn mx : Nat × β), mx.1 < i →
      (std.minmax_element_loop c rest i mn mx).2 < i + rest.length := by
  intro rest
  induction rest with
  | nil => intro i mn mx h; simpa [std.minmax_element_loop] using h
  | cons x rest ih =>
    intro i mn mx h
    rw [std.minmax_element_loop]
    have hstep : (if c x mx.2 then mx else (i, x)).1 < i + 1 := by
      split_ifs
      · exact Nat.lt_succ_of_lt h
      · exact Nat.lt_succ_self i
    have := ih (i + 1) (if c x mn.2 then (i, x) else mn) (if c x mx.2 then mx else (i, x))
      hstep
    simp only [List.length_cons]
    omega

theorem minmax_snd_lt {β : Type} (c : β → β → Bool) (l : List β) (hl : l ≠ []) :
    (std.minmax_element c l).2 < l.length := by
  cases l with
  | nil => exact absurd rfl hl
  | cons x rest =>
    have := minmax_loop_snd_lt c rest 1 (0, x) (0, x) (by simp)
    simp only [List.length_cons, std.minmax_element]
    omega

/-! ## The blocks of a partition -/

theorem local_range_cons (blk : List α) (rest : Partition α) :
    local_range (blk :: rest) = blk ++ local_range rest := by
  simp [local_range]

theorem blocks_from_spec :
    ∀ (p : Partition α) (pre : List α) (e : Nat × List α), e ∈ blocks_from pre.length p →
      ∃ l1 l2, pre ++ local_range p = l1 ++ e.2 ++ l2 ∧ l1.length = e.1 := by
  intro p
  induction p with
  | nil =>
    intro pre e he
    simp [blocks_from] at he
  | cons blk rest ih =>
    intro pre e he
    rw [blocks_from, List.mem_cons] at he
    rcases he with he | he
    · refine ⟨pre, local_range rest, ?_, ?_⟩
      · rw [he, local_range_cons]
        simp
      · rw [he]
    · rw [← List.length_append] at he
      obtain ⟨l1, l2, h1, h2⟩ := ih (pre ++ blk) e he
      refine ⟨l1, l2, ?_, h2⟩
      rw [← h1, local_range_cons]
      simp

/-- Every block lies inside the local range. -/
theorem block_le {p : Partition α} {e : Nat × List α} (he : e ∈ blocks_from 0 p) :
    e.1 + e.2.length ≤ (local_range p).length := by
  obtain ⟨l1, l2, h1, h2⟩ := blocks_from_spec p [] e he
  simp only [List.nil_append] at h1
  rw [h1]
  simp only [List.length_append]
  omega

/-- The local range holds the elements of a block from the begin iterator of the block on. -/
theorem block_get {p : Partition α} {e : Nat × List α} (he : e ∈ blocks_from 0 p) (k : Nat)
    (hk : k < e.2.length) : (local_range p)[e.1 + k]? = e.2[k]? := by
  obtain ⟨l1, l2, h1, h2⟩ := blocks_from_spec p [] e he
  simp only [List.nil_append] at h1
  rw [h1, List.append_assoc, List.getElem?_append_right (by omega),
    List.getElem?_append_left (by omega)]
  congr 1
  omega

theorem local_map_posOk (f : List α → Nat) (hf0 : f [] = 0)
    (hf : ∀ l, l ≠ [] → f l < l.length) (p : Partition α) :
    LocalPosOk (local_range p).length (local_map p (fun b blk => b + f blk)) := by
  constructor
  · intro x hx
    simp only [local_map, List.mem_map] at hx
    obtain ⟨e, he, hxe⟩ := hx
    have hle := block_le he
    have hfe : f e.2 ≤ e.2.length := by
      by_cases h : e.2 = []
      · rw [h, hf0]
        exact Nat.zero_le _
      · exact Nat.le_of_lt (hf _ h)
    omega
  · by_cases hlen : (local_range p).length = 0
    · exact Or.inl hlen
    · right
      intro x hx
      cases p with
      | nil => simp [local_map, blocks_from] at hx
      | cons blk rest =>
        simp only [local_map, blocks_from, List.map_cons, List.head?_cons, Option.some.injEq]
          at hx
        by_cases h : blk = []
        · rw [h, hf0] at hx
          omega
        · have := hf blk h
          rw [local_range_cons, List.length_append]
          omega

/-! ## The local reduce never reads through the end iterator -/

theorem local_min_chk_loop_total (comp : α → α → Bool) (lr : List α) :
    ∀ (rest : List Nat) (i s sv : Nat), (∀ x ∈ rest, x ≤ lr.length) →
      (lr.length = 0 ∨ sv < lr.length) →
      ∃ k, std.min_element_chk_loop
        (impl.distributed_parallel_tag.local_min_comp comp lr) rest i s sv = some k := by
  intro rest
  induction rest with
  | nil => intro i s sv _ _; exact ⟨s, rfl⟩
  | cons x rest ih =>
    intro i s sv hb hsv
    have hrest : ∀ y ∈ rest, y ≤ lr.length := fun y hy => hb y (List.mem_cons_of_mem _ hy)
    have hx := hb x (List.mem_cons_self _ _)
    rw [std.min_element_chk_loop]
    by_cases hxe : x = lr.length
    · have hc : impl.distributed_parallel_tag.local_min_comp comp lr x sv = some false := by
        unfold impl.distributed_parallel_tag.local_min_comp
        rw [if_neg (by simpa using hxe)]
      rw [hc]
      exact ih (i + 1) s sv hrest hsv
    · have hxlt : x < lr.length := by omega
      have hsvlt : sv < lr.length := by omega
      have hc : impl.distributed_parallel_tag.local_min_comp comp lr x sv =
          some (comp lr[x] lr[sv]) := by
        unfold impl.distributed_parallel_tag.local_min_comp deref
        rw [if_pos hxe, List.getElem?_eq_getElem hxlt, List.getElem?_eq_getElem hsvlt]
      rw [hc]
      cases comp lr[x] lr[sv] with
      | true => exact ih (i + 1) i x hrest (Or.inr hxlt)
      | false => exact ih (i + 1) s sv hrest hsv

/-- The local reduce of the minimum returns an iterator on every list of local positions the
local map can produce. -/
theorem local_min_chk_total (comp : α → α → Bool) (lr : List α) (L : List Nat)
    (h : LocalPosOk lr.length L) :
    ∃ k, std.min_element_chk (impl.distributed_parallel_tag.local_min_comp comp lr) L =
      some k := by
  cases L with
  | nil => exact ⟨0, rfl⟩
  | cons x rest =>
    refine local_min_chk_loop_total comp lr rest 1 0 x
      (fun y hy => h.1 y (List.mem_cons_of_mem _ hy)) ?_
    rcases h.2 with h0 | h1
    · exact Or.inl h0
    · exact Or.inr (h1 x rfl)

theorem local_max_comp_eq_min (comp : α → α → Bool) (lr : List α) (x y : Nat) :
    impl.distributed_parallel_tag.local_max_comp comp lr x y =
      impl.distributed_parallel_tag.local_min_comp (fun a b => comp b a) lr y x := by
  unfold impl.distributed_parallel_tag.local_max_comp
    impl.distributed_parallel_tag.local_min_comp
  cases deref lr x <;> cases deref lr y <;> rfl

/-- The local reduce of the maximum is the local reduce of the minimum for the converse
comparator. -/
theorem local_max_chk_eq_min (comp : α → α → Bool) (lr : List α) (L : List Nat) :
    std.max_element_chk (impl.distributed_parallel_tag.local_max_comp comp lr) L =
      std.min_element_chk
        (impl.distributed_parallel_tag.local_min_comp (fun a b => comp b a) lr) L := by
  rw [max_chk_eq_min]
  congr 1
  funext a b
  exact local_max_comp_eq_min comp lr b a

theorem local_max_chk_total (comp : α → α → Bool) (lr : List α) (L : List Nat)
    (h : LocalPosOk lr.length L) :
    ∃ k, std.max_element_chk (impl.distributed_parallel_tag.local_max_comp comp lr) L =
      some k := by
  rw [local_max_chk_eq_min]
  exact local_min_chk_total _ lr L h

/-! ## The parallel kernels in closed form -/

theorem forall₂_map_map {γ β1 β2 : Type} (R : β1 → β2 → Prop) (f1 : γ → β1) (f2 : γ → β2)
    (l : List γ) (h : ∀ x ∈ l, R (f1 x) (f2 x)) : List.Forall₂ R (l.map f1) (l.map f2) := by
  rw [List.forall₂_map_left_iff, List.forall₂_map_right_iff, List.forall₂_same]
  exact h

theorem getD_le_of_forall_le (L : List Nat) (len : Nat) (h : ∀ x ∈ L, x ≤ len) (k : Nat) :
    (L[k]?).getD len ≤ len := by
  cases hk : L[k]? with
  | none => simp
  | some x => simpa using h x (List.getElem?_mem hk)

theorem local_reduce_min_pos_le (comp : α → α → Bool) (f : List α → Nat) (hf0 : f [] = 0)
    (hf : ∀ l, l ≠ [] → f l < l.length) (p : Partition α) :
    local_reduce_min_pos comp f p ≤ (local_range p).length := by
  unfold local_reduce_min_pos
  split
  · exact getD_le_of_forall_le _ _ (local_map_posOk f hf0 hf p).1 _
  · exact Nat.le_refl _

theorem local_reduce_max_pos_le (comp : α → α → Bool) (f : List α → Nat) (hf0 : f [] = 0)
    (hf : ∀ l, l ≠ [] → f l < l.length) (p : Partition α) :
    local_reduce_max_pos comp f p ≤ (local_range p).length := by
  unfold local_reduce_max_pos
  split
  · exact getD_le_of_forall_le _ _ (local_map_posOk f hf0 hf p).1 _
  · exact Nat.le_refl _

theorem par_min_kernel_eq (dv : α) (comp : α → α → Bool) (last : Nat) (v : LocalView α) :
    impl.distributed_parallel_tag.min_element_kernel dv comp last v =
      some (kernel_out dv last v (local_reduce_min_pos comp (std.min_element comp) v.blocks)) := by
  obtain ⟨k, hk⟩ := local_min_chk_total comp (local_range v.blocks) _
    (local_map_posOk (std.min_element comp) rfl (min_element_lt comp) v.blocks)
  simp only [impl.distributed_parallel_tag.min_element_kernel, local_reduce_min_pos, hk,
    kernel_out]

theorem par_max_kernel_eq (dv : α) (comp : α → α → Bool) (last : Nat) (v : LocalView α) :
    impl.distributed_parallel_tag.max_element_kernel dv comp last v =
      some (kernel_out dv last v (local_reduce_max_pos comp (std.max_element comp) v.blocks)) := by
  obtain ⟨k, hk⟩ := local_max_chk_total comp (local_range v.blocks) _
    (local_map_posOk (std.max_element comp) rfl (max_element_lt comp) v.blocks)
  simp only [impl.distributed_parallel_tag.max_element_kernel, local_reduce_max_pos, hk,
    kernel_out]

theorem local_map_map_fst (p : Partition α) (f g : List α → Nat) :
    (local_map p (fun b blk => (b + f blk, b + g blk))).map Prod.fst =
      local_map p (fun b blk => b + f blk) := by
  simp [local_map, List.map_map, Function.comp_def]

theorem local_map_map_snd (p : Partition α) (f g : List α → Nat) :
    (local_map p (fun b blk => (b + f blk, b + g blk))).map Prod.snd =
      local_map p (fun b blk => b + g blk) := by
  simp [local_map, List.map_map, Function.comp_def]

theorem min_chk_on_fst (c : Nat → Nat → Option Bool) (L : List (Nat × Nat)) :
    std.min_element_chk (fun x y => c x.1 y.1) L = std.min_element_chk c (L.map Prod.fst) := by
  refine min_chk_rel (fun (x : Nat × Nat) (y : Nat) => x.1 = y) _ _ ?_ _ _ ?_
  · intro x1 x2 y1 y2 hx hy
    rw [hx, hy]
  · rw [List.forall₂_map_right_iff, List.forall₂_same]
    intro x _
    rfl

theorem max_chk_on_snd (c : Nat → Nat → Option Bool) (L : List (Nat × Nat)) :
    std.max_element_chk (fun x y => c x.2 y.2) L = std.max_element_chk c (L.map Prod.snd) := by
  refine max_chk_rel (fun (x : Nat × Nat) (y : Nat) => x.2 = y) _ _ ?_ _ _ ?_
  · intro x1 x2 y1 y2 hx hy
    rw [hx, hy]
  · rw [List.forall₂_map_right_iff, List.forall₂_same]
    intro x _
    rfl

theorem par_minmax_kernel_eq (dv : α) (comp : α → α → Bool) (last : Nat) (v : LocalView α) :
    impl.distributed_parallel_tag.minmax_element_kernel dv comp last v =
      some ⟨(kernel_out dv last v
              (local_reduce_min_pos comp (std.min_element comp) v.blocks)).1,
            (kernel_out dv last v
              (local_reduce_max_pos comp (pick_last_max comp) v.blocks)).1,
            (kernel_out dv last v
              (local_reduce_min_pos comp (std.min_element comp) v.blocks)).2,
            (kernel_out dv last v
              (local_reduce_max_pos comp (pick_last_max comp) v.blocks)).2⟩ := by
  obtain ⟨k, hk⟩ := local_min_chk_total comp (local_range v.blocks) _
    (local_map_posOk (std.min_element comp) rfl (min_element_lt comp) v.blocks)
  obtain ⟨k2, hk2⟩ := local_max_chk_total comp (local_range v.blocks) _
    (local_map_posOk (pick_last_max comp) rfl (minmax_snd_lt comp) v.blocks)
  have hfst : List.map Prod.fst (local_map v.blocks (fun b blk =>
      (b + (std.minmax_element comp blk).1, b + (std.minmax_element comp blk).2))) =
      local_map v.blocks (fun b blk => b + std.min_element comp blk) := by
    rw [local_map_map_fst]
    simp only [minmax_fst]
  have hsnd := local_map_map_snd v.blocks (fun blk => (std.minmax_element comp blk).1)
    (fun blk => (std.minmax_element comp blk).2)
  have hfst2 : List.map (fun x => x.1) (local_map v.blocks (fun b blk =>
      (b + (std.minmax_element comp blk).1, b + (std.minmax_element comp blk).2))) =
      local_map v.blocks (fun b blk => b + std.min_element comp blk) := hfst
  have hsnd2 : List.map (fun x => x.2) (local_map v.blocks (fun b blk =>
      (b + (std.minmax_element comp blk).1, b + (std.minmax_element comp blk).2))) =
      local_map v.blocks (fun b blk => b + (std.minmax_element comp blk).2) := hsnd
  simp only [pick_last_max] at hk2
  simp only [impl.distributed_parallel_tag.minmax_element_kernel, local_reduce_min_pos,
    local_reduce_max_pos, kernel_out, min_chk_on_fst, max_chk_on_snd, pick_last_max,
    ← List.getElem?_map, hfst, hsnd, hfst2, hsnd2, hk, hk2]

/-! ## Equivalent candidates of the maximum -/

theorem StrictWeakOrder.equiv_left {comp : α → α → Bool} (h : StrictWeakOrder comp)
    {u v : α} (huv : comp u v = false) (hvu : comp v u = false) (w : α) :
    comp u w = comp v w := by
  cases h1 : comp u w with
  | true =>
    cases h2 : comp v w with
    | true => rfl
    | false =>
      have := h.neg_trans u v w huv h2
      rw [h1] at this
      exact absurd this (by decide)
  | false =>
    cases h2 : comp v w with
    | false => rfl
    | true =>
      have := h.neg_trans v u w hvu h1
      rw [h2] at this
      exact absurd this (by decide)

theorem StrictWeakOrder.equiv_right {comp : α → α → Bool} (h : StrictWeakOrder comp)
    {u v : α} (huv : comp u v = false) (hvu : comp v u = false) (w : α) :
    comp w u = comp w v :=
  @StrictWeakOrder.equiv_left α (fun a b => comp b a) h.flip u v hvu huv w

theorem local_max_comp_congr {comp : α → α → Bool} (hc : StrictWeakOrder comp) (lr : List α)
    (x1 x2 y1 y2 : Nat) (hx : LocalEqv comp lr x1 x2) (hy : LocalEqv comp lr y1 y2) :
    impl.distributed_parallel_tag.local_max_comp comp lr x1 y1 =
      impl.distributed_parallel_tag.local_max_comp comp lr x2 y2 := by
  unfold impl.distributed_parallel_tag.local_max_comp deref
  rcases hx with hx | ⟨u1, u2, hu1, hu2, hu12, hu21⟩ <;>
    rcases hy with hy | ⟨w1, w2, hw1, hw2, hw12, hw21⟩
  · rw [hx, hy]
  · have h1 := Nat.ne_of_lt (lt_length_of_getElem? hw1)
    have h2 := Nat.ne_of_lt (lt_length_of_getElem? hw2)
    rw [hx, if_pos h1, if_pos h2, hw1, hw2]
    cases lr[x2]? with
    | none => rfl
    | some a => simp only [hc.equiv_right hw12 hw21 a]
  · rw [hy, hu1, hu2]
    split_ifs
    · cases lr[y2]? with
      | none => rfl
      | some b => simp only [hc.equiv_left hu12 hu21 b]
    · rfl
  · have h1 := Nat.ne_of_lt (lt_length_of_getElem? hw1)
    have h2 := Nat.ne_of_lt (lt_length_of_getElem? hw2)
    rw [if_pos h1, if_pos h2, hu1, hu2, hw1, hw2]
    simp only [hc.equiv_left hu12 hu21 w1, hc.equiv_right hw12 hw21 u2]

/-- On every block the last largest and the first largest element are interchangeable. -/
theorem block_max_localEqv {comp : α → α → Bool} (hc : StrictWeakOrder comp)
    {p : Partition α} {e : Nat × List α} (he : e ∈ blocks_from 0 p) :
    LocalEqv comp (local_range p) (e.1 + pick_last_max comp e.2)
      (e.1 + std.max_element comp e.2) := by
  by_cases hnil : e.2 = []
  · left
    rw [hnil]
    rfl
  · right
    obtain ⟨u, hu⟩ := pick_last_max_spec hc e.2 hnil
    obtain ⟨w, hw⟩ := min_element_spec hc.flip e.2 hnil
    rw [← max_element_eq_min] at hw
    refine ⟨u, w, ?_, ?_, ?_, ?_⟩
    · rw [block_get he _ (lt_length_of_getElem? hu.1)]
      exact hu.1
    · rw [block_get he _ (lt_length_of_getElem? hw.1)]
      exact hw.1
    · exact hu.2 w (List.getElem?_mem hw.1)
    · exact hw.2.1 u (List.getElem?_mem hu.1)

/-- The local reduce of the maximum selects interchangeable positions whether the blocks report
their last or their first largest element. -/
theorem local_reduce_max_pos_localEqv {comp : α → α → Bool} (hc : StrictWeakOrder comp)
    (p : Partition α) :
    LocalEqv comp (local_range p) (local_reduce_max_pos comp (pick_last_max comp) p)
      (local_reduce_max_pos comp (std.max_element comp) p) := by
  have hrel : List.Forall₂ (LocalEqv comp (local_range p))
      (local_map p (fun b blk => b + pick_last_max comp blk))
      (local_map p (fun b blk => b + std.max_element comp blk)) :=
    forall₂_map_map _ _ _ _ (fun e he => block_max_localEqv hc he)
  have hchk := max_chk_rel (LocalEqv comp (local_range p)) _ _
    (local_max_comp_congr hc (local_range p)) _ _ hrel
  unfold local_reduce_max_pos
  rw [hchk]
  cases std.max_element_chk (impl.distributed_parallel_tag.local_max_comp comp (local_range p))
      (local_map p (fun b blk => b + std.max_element comp blk)) with
  | none => exact Or.inl rfl
  | some k =>
    simp only [local_map, List.getElem?_map]
    cases hk : (blocks_from 0 p)[k]? with
    | none => exact Or.inl rfl
    | some e => exact block_max_localEqv hc (List.getElem?_mem hk)

/-! ## The localities of a range and the parallel map -/

theorem localities_from_spec :
    ∀ (todo : DistributedRange α) (pre : List α) (v : LocalView α),
      v ∈ localities_from pre.length todo →
      ∃ l1 l2, pre ++ elements todo = l1 ++ local_range v.blocks ++ l2 ∧
        l1.length = v.offset := by
  intro todo
  induction todo with
  | nil =>
    intro pre v hv
    simp [localities_from] at hv
  | cons p ps ih =>
    intro pre v hv
    rw [localities_from, List.mem_cons] at hv
    rcases hv with hv | hv
    · refine ⟨pre, elements ps, ?_, ?_⟩
      · rw [hv, elements_cons]
        simp
      · rw [hv]
    · rw [← List.length_append] at hv
      obtain ⟨l1, l2, h1, h2⟩ := ih (pre ++ local_range p) v hv
      refine ⟨l1, l2, ?_, h2⟩
      rw [← h1, elements_cons]
      simp

/-- Every local range is a segment of the sequence that starts at the offset of its view. -/
theorem localities_spec (r : DistributedRange α) (v : LocalView α) (hv : v ∈ localities r) :
    ∃ l1 l2, elements r = l1 ++ local_range v.blocks ++ l2 ∧ l1.length = v.offset := by
  have := localities_from_spec r [] v hv
  simpa using this

theorem localities_ne_nil {r : DistributedRange α} (hne : elements r ≠ []) :
    localities r ≠ [] := by
  cases r with
  | nil => exact absurd rfl hne
  | cons p ps => simp [localities, localities_from]

theorem collect_some {γ : Type} (kernel : LocalView α → Option γ) (g : LocalView α → γ)
    (h : ∀ v, kernel v = some (g v)) :
    ∀ views : List (LocalView α), collect kernel views = some (views.map g) := by
  intro views
  induction views with
  | nil => rfl
  | cons v vs ih => simp only [collect, h v, ih, List.map_cons]

/-- A parallel kernel reports the local end as the sentinel with the placeholder value. -/
theorem kernel_out_nil (dv : α) (last : Nat) (v : LocalView α) :
    kernel_out dv last v (local_range v.blocks).length = (last, dv) := by
  simp [kernel_out, iterator_from_local, deref]

/-- A parallel kernel reports a dereferenceable local position as the global position of the
element, with the element. -/
theorem kernel_out_valid (dv : α) (r : DistributedRange α) (v : LocalView α)
    (hv : v ∈ localities r) (l : Nat) (x : α) (hx : (local_range v.blocks)[l]? = some x) :
    kernel_out dv (range_last r) v l = (v.offset + l, x) ∧
      (elements r)[v.offset + l]? = some x ∧ v.offset + l ≠ range_last r := by
  obtain ⟨l1, l2, h1, h2⟩ := localities_spec r v hv
  have hl := lt_length_of_getElem? hx
  have hlen : v.offset + l < range_last r := by
    unfold range_last
    rw [h1]
    simp only [List.length_append]
    omega
  refine ⟨?_, ?_, Nat.ne_of_lt hlen⟩
  · simp only [kernel_out, iterator_from_local, deref, hx, Option.getD_some]
    rw [if_neg (Nat.ne_of_lt hl)]
  · rw [h1, List.append_assoc, List.getElem?_append_right (by omega),
      List.getElem?_append_left (by omega), ← hx]
    congr 1
    omega

theorem GlobalRel.equiv {comp : α → α → Bool} (hc : StrictWeakOrder comp) {last : Nat}
    {S : List α} {a b : Nat × α} (h : GlobalRel comp last S a b) :
    comp a.2 b.2 = false ∧ comp b.2 a.2 = false := by
  rcases h with ⟨_, _, h⟩ | ⟨_, _, _, _, h1, h2⟩
  · rw [h]
    exact ⟨hc.irrefl _, hc.irrefl _⟩
  · exact ⟨h1, h2⟩

theorem GlobalRel.last_iff {comp : α → α → Bool} {last : Nat}
    {S : List α} {a b : Nat × α} (h : GlobalRel comp last S a b) :
    a.1 ≠ last ↔ b.1 ≠ last := by
  rcases h with ⟨h1, h2, _⟩ | ⟨h1, h2, _⟩
  · exact ⟨fun h => absurd h1 h, fun h => absurd h2 h⟩
  · exact ⟨fun _ => h2, fun _ => h1⟩

theorem kernel_out_globalRel {comp : α → α → Bool} (hc : StrictWeakOrder comp) (dv : α)
    (r : DistributedRange α) (v : LocalView α) (hv : v ∈ localities r) (l1 l2 : Nat)
    (hl1 : l1 ≤ (local_range v.blocks).length)
    (h : LocalEqv comp (local_range v.blocks) l1 l2) :
    GlobalRel comp (range_last r) (elements r) (kernel_out dv (range_last r) v l1)
      (kernel_out dv (range_last r) v l2) := by
  rcases h with h | ⟨u, w, hu, hw, huw, hwu⟩
  · subst h
    by_cases hl : l1 = (local_range v.blocks).length
    · left
      rw [hl, kernel_out_nil]
      exact ⟨rfl, rfl, rfl⟩
    · right
      have hlt : l1 < (local_range v.blocks).length := by omega
      obtain ⟨h1, h2, h3⟩ := kernel_out_valid dv r v hv l1 _ (List.getElem?_eq_getElem hlt)
      rw [h1]
      exact ⟨h3, h3, h2, h2, hc.irrefl _, hc.irrefl _⟩
  · right
    obtain ⟨h1, h2, h3⟩ := kernel_out_valid dv r v hv l1 u hu
    obtain ⟨k1, k2, k3⟩ := kernel_out_valid dv r v hv l2 w hw
    rw [h1, k1]
    exact ⟨h3, k3, h2, k2, huw, hwu⟩

/-! ## The parallel `minmax_element` against the parallel `min_element` and `max_element` -/

theorem par_min_element_eq (dv : α) (comp : α → α → Bool) (r : DistributedRange α)
    (hne : elements r ≠ []) :
    impl.distributed_parallel_tag.min_element dv comp r =
      (((localities r).map (par_min_out dv comp (range_last r)))[std.min_element
        (fun x y => decide (x.1 ≠ range_last r) && comp x.2 y.2)
        ((localities r).map (par_min_out dv comp (range_last r)))]?).map (fun res => res.1) := by
  simp only [impl.distributed_parallel_tag.min_element, if_neg (range_last_ne_zero hne),
    distributed_map]
  rw [collect_some _ (par_min_out dv comp (range_last r))
    (fun v => par_min_kernel_eq dv comp (range_last r) v)]

theorem par_max_element_eq (dv : α) (comp : α → α → Bool) (r : DistributedRange α)
    (hne : elements r ≠ []) :
    impl.distributed_parallel_tag.max_element dv comp r =
      (((localities r).map (par_max_out dv comp (range_last r)))[std.max_element
        (fun x y => decide (y.1 ≠ range_last r) && comp x.2 y.2)
        ((localities r).map (par_max_out dv comp (range_last r)))]?).map (fun res => res.1) := by
  simp only [impl.distributed_parallel_tag.max_element, if_neg (range_last_ne_zero hne),
    distributed_map]
  rw [collect_some _ (par_max_out dv comp (range_last r))
    (fun v => par_max_kernel_eq dv comp (range_last r) v)]

theorem par_minmax_element_eq (dv : α) (comp : α → α → Bool) (r : DistributedRange α)
    (hne : elements r ≠ []) :
    impl.distributed_parallel_tag.minmax_element dv comp r =
      match ((localities r).map (par_minmax_out dv comp (range_last r)))[std.min_element
          (fun x y => decide (x.min ≠ range_last r) && comp x.min_val y.min_val)
          ((localities r).map (par_minmax_out dv comp (range_last r)))]?,
        ((localities r).map (par_minmax_out dv comp (range_last r)))[std.max_element
          (fun x y => decide (y.max ≠ range_last r) && comp x.max_val y.max_val)
          ((localities r).map (par_minmax_out dv comp (range_last r)))]? with
      | some a, some b => some (a.min, b.max)
      | _, _ => none := by
  simp only [impl.distributed_parallel_tag.minmax_element, if_neg (range_last_ne_zero hne),
    distributed_map]
  rw [collect_some _ (par_minmax_out dv comp (range_last r))
    (fun v => par_minmax_kernel_eq dv comp (range_last r) v)]

theorem getElem?_map_of_lt {γ β : Type} (g : γ → β) (l : List γ) (i : Nat)
    (hi : i < (l.map g).length) :
    ∃ v, v ∈ l ∧ l[i]? = some v ∧ (l.map g)[i]? = some (g v) := by
  rw [List.length_map] at hi
  refine ⟨l[i], List.getElem_mem _, List.getElem?_eq_getElem hi, ?_⟩
  rw [List.getElem?_map, List.getElem?_eq_getElem hi]
  rfl

/-- The parallel `minmax_element` returns a pair: its first position is the result of the
parallel `min_element`, its second position and the result of the parallel `max_element` are
the same up to ties. -/
theorem par_minmax_element_vs_min_max {comp : α → α → Bool} (hc : StrictWeakOrder comp)
    (dv : α) (r : DistributedRange α) :
    ∃ a b m, impl.distributed_parallel_tag.minmax_element dv comp r = some (a, b) ∧
      impl.distributed_parallel_tag.min_element dv comp r = some a ∧
      impl.distributed_parallel_tag.max_element dv comp r = some m ∧
      SameUpToTies comp (elements r) b m := by
  by_cases hne : elements r = []
  · have h0 : 0 = range_last r := by simp [range_last, hne]
    refine ⟨range_last r, range_last r, range_last r, ?_, ?_, ?_, Or.inl ⟨rfl, rfl⟩⟩
    · simp only [impl.distributed_parallel_tag.minmax_element, if_pos h0]
    · simp only [impl.distributed_parallel_tag.min_element, if_pos h0]
    · simp only [impl.distributed_parallel_tag.max_element, if_pos h0]
  · have hviews := localities_ne_nil hne
    -- the two final reduces of `minmax_element` select the indices of the separate reduces
    have himin : std.min_element
        (fun (x y : impl.distributed_parallel_tag.sol_t α) =>
          decide (x.min ≠ range_last r) && comp x.min_val y.min_val)
        ((localities r).map (par_minmax_out dv comp (range_last r))) =
        std.min_element (fun (x y : Nat × α) => decide (x.1 ≠ range_last r) && comp x.2 y.2)
          ((localities r).map (par_min_out dv comp (range_last r))) := by
      refine min_element_rel
        (fun (s : impl.distributed_parallel_tag.sol_t α) (m : Nat × α) =>
          s.min = m.1 ∧ s.min_val = m.2) _ _ ?_ _ _ ?_
      · intro x1 x2 y1 y2 hx hy
        rw [hx.1, hx.2, hy.2]
      · exact forall₂_map_map _ _ _ _ (fun v _ => ⟨rfl, rfl⟩)
    have himax : std.max_element
        (fun (x y : impl.distributed_parallel_tag.sol_t α) =>
          decide (y.max ≠ range_last r) && comp x.max_val y.max_val)
        ((localities r).map (par_minmax_out dv comp (range_last r))) =
        std.max_element (fun (x y : Nat × α) => decide (y.1 ≠ range_last r) && comp x.2 y.2)
          ((localities r).map (par_max_out dv comp (range_last r))) := by
      refine max_element_rel
        (fun (s : impl.distributed_parallel_tag.sol_t α) (m : Nat × α) =>
          GlobalRel comp (range_last r) (elements r) (s.max, s.max_val) m) _ _ ?_ _ _ ?_
      · intro x1 x2 y1 y2 hx hy
        have hd : decide (y1.max ≠ range_last r) = decide (y2.1 ≠ range_last r) :=
          decide_eq_decide.2 hy.last_iff
        rw [hd, hc.equiv_left (hx.equiv hc).1 (hx.equiv hc).2,
          hc.equiv_right (hy.equiv hc).1 (hy.equiv hc).2]
      · refine forall₂_map_map _ _ _ _ (fun v hv => ?_)
        exact kernel_out_globalRel hc dv r v hv _ _
          (local_reduce_max_pos_le comp _ rfl (minmax_snd_lt comp) v.blocks)
          (local_reduce_max_pos_localEqv hc v.blocks)
    rw [par_minmax_element_eq dv comp r hne, par_min_element_eq dv comp r hne,
      par_max_element_eq dv comp r hne, himin, himax]
    have hlmin : std.min_element
        (fun (x y : Nat × α) => decide (x.1 ≠ range_last r) && comp x.2 y.2)
        ((localities r).map (par_min_out dv comp (range_last r))) <
        ((localities r).map (par_min_out dv comp (range_last r))).length :=
      min_element_lt _ _ (by simpa using hviews)
    have hlmax : std.max_element
        (fun (x y : Nat × α) => decide (y.1 ≠ range_last r) && comp x.2 y.2)
        ((localities r).map (par_max_out dv comp (range_last r))) <
        ((localities r).map (par_max_out dv comp (range_last r))).length :=
      max_element_lt _ _ (by simpa using hviews)
    obtain ⟨v1, _, hv1, hg1⟩ := getElem?_map_of_lt (par_min_out dv comp (range_last r)) _ _ hlmin
    obtain ⟨v2, hmem2, hv2, hg2⟩ :=
      getElem?_map_of_lt (par_max_out dv comp (range_last r)) _ _ hlmax
    refine ⟨(par_min_out dv comp (range_last r) v1).1,
      (par_minmax_max_out dv comp (range_last r) v2).1,
      (par_max_out dv comp (range_last r) v2).1, ?_, ?_, ?_, ?_⟩
    · rw [List.getElem?_map, List.getElem?_map, hv1, hv2]
      rfl
    · rw [hg1]
      rfl
    · rw [hg2]
      rfl
    · have hrel := kernel_out_globalRel hc dv r v2 hmem2 _ _
        (local_reduce_max_pos_le comp _ rfl (minmax_snd_lt comp) v2.blocks)
        (local_reduce_max_pos_localEqv hc v2.blocks)
      rcases hrel with ⟨h1, h2, _⟩ | ⟨_, _, h3, h4, h5, h6⟩
      · exact Or.inl ⟨h1, h2⟩
      · exact Or.inr ⟨_, _, h3, h4, h5, h6⟩

/-! ## The sequential `minmax_element` against the sequential `min_element` and `max_element` -/

/-- The sequential `minmax_element` returns the position of the sequential `min_element`, and
a second position that is the one of the sequential `max_element` up to ties. -/
theorem seq_minmax_element_vs_min_max {comp : α → α → Bool} (hc : StrictWeakOrder comp)
    (dv : α) (r : DistributedRange α) :
    (impl.distributed_sequential_tag.minmax_element dv comp r).1 =
        impl.distributed_sequential_tag.min_element dv comp r ∧
      SameUpToTies comp (elements r)
        (impl.distributed_sequential_tag.minmax_element dv comp r).2
        (impl.distributed_sequential_tag.max_element dv comp r) := by
  by_cases hne : elements r = []
  · have h0 : 0 = range_last r := by simp [range_last, hne]
    simp only [impl.distributed_sequential_tag.minmax_element,
      impl.distributed_sequential_tag.min_element,
      impl.distributed_sequential_tag.max_element, if_pos h0, true_and]
    exact Or.inl ⟨rfl, rfl⟩
  · refine ⟨by rw [seq_minmax_element_eq dv comp r hne], Or.inr ?_⟩
    obtain ⟨x, hx⟩ := seq_minmax_element_snd_maxAt hc dv r hne
    obtain ⟨y, hy⟩ := seq_max_element_maxAt hc dv r hne
    exact ⟨x, y, hx.1, hy.1, hx.2 y (List.getElem?_mem hy.1), hy.2 x (List.getElem?_mem hx.1)⟩

/-! ## A reduce over candidate positions -/

theorem strictWeakOrder_key_comp {comp : α → α → Bool} (hc : StrictWeakOrder comp) :
    StrictWeakOrder (key_comp comp) where
  irrefl := by
    intro a
    cases a with
    | none => rfl
    | some u => exact hc.irrefl u
  trans := by
    intro a b c hab hbc
    cases a <;> cases b <;> cases c <;>
      first
      | exact hc.trans _ _ _ hab hbc
      | rfl
      | exact Bool.noConfusion hab
      | exact Bool.noConfusion hbc
  equiv_trans := by
    intro a b c hab hba hbc hcb
    cases a <;> cases b <;> cases c <;>
      first
      | exact hc.equiv_trans _ _ _ hab hba hbc hcb
      | exact ⟨rfl, rfl⟩
      | exact Bool.noConfusion hab
      | exact Bool.noConfusion hba
      | exact Bool.noConfusion hbc
      | exact Bool.noConfusion hcb

theorem strictWeakOrder_pos_comp {comp : α → α → Bool} (hc : StrictWeakOrder comp)
    (S : List α) : StrictWeakOrder (pos_comp comp S) where
  irrefl := fun _ => (strictWeakOrder_key_comp hc).irrefl _
  trans := fun _ _ _ => (strictWeakOrder_key_comp hc).trans _ _ _
  equiv_trans := fun _ _ _ => (strictWeakOrder_key_comp hc).equiv_trans _ _ _

/-- The first minimum of a sequence is unique. -/
theorem FirstMinAt.unique {comp : α → α → Bool} {s : List α} {p q : Nat} {e x : α}
    (h1 : FirstMinAt comp s p e) (h2 : FirstMinAt comp s q x) : p = q := by
  rcases Nat.lt_trichotomy p q with h | h | h
  · have := h2.2.2 p e h h1.1
    rw [h1.2.1 x (List.getElem?_mem h2.1)] at this
    exact absurd this (by decide)
  · exact h
  · have := h1.2.2 q x h h2.1
    rw [h2.2.1 e (List.getElem?_mem h1.1)] at this
    exact absurd this (by decide)

/-- A reduce by `std::min_element` over candidate positions that are in increasing order as far
as they lie inside the sequence, and among which the first minimum of the sequence occurs,
selects the first minimum of the sequence. -/
theorem min_over_candidates {comp : α → α → Bool} (hc : StrictWeakOrder comp) (S : List α)
    (C : List Nat) (P : Nat) (e : α) (hP : FirstMinAt comp S P e) (hmem : P ∈ C)
    (hsorted : List.Pairwise (fun x y => x < S.length → y < S.length → x ≤ y) C) :
    C[std.min_element (pos_comp comp S) C]? = some P := by
  have hne : C ≠ [] := List.ne_nil_of_mem hmem
  obtain ⟨c, hk⟩ := min_element_spec (strictWeakOrder_pos_comp hc S) C hne
  rw [hk.1]
  congr 1
  -- the selected candidate holds an element equivalent to the minimum
  have h1 := hk.2.1 P hmem
  unfold pos_comp at h1
  rw [hP.1] at h1
  cases hSc : S[c]? with
  | none =>
    rw [hSc] at h1
    exact Bool.noConfusion h1
  | some u =>
    rw [hSc] at h1
    have heu : comp e u = false := h1
    have hue : comp u e = false := hP.2.1 u (List.getElem?_mem hSc)
    have hcP : ¬ c < P := by
      intro hlt
      have := hP.2.2 c u hlt hSc
      rw [heu] at this
      exact absurd this (by decide)
    obtain ⟨k0, hk0⟩ := List.mem_iff_getElem?.1 hmem
    have hkk0 : ¬ k0 < std.min_element (pos_comp comp S) C := by
      intro hlt
      have := hk.2.2 k0 P hlt hk0
      unfold pos_comp at this
      rw [hSc, hP.1] at this
      have h3 : comp u e = true := this
      rw [hue] at h3
      exact absurd h3 (by decide)
    by_cases heq : std.min_element (pos_comp comp S) C = k0
    · have := hk.1
      rw [heq, hk0] at this
      exact (Option.some.inj this).symm
    · have hlt : std.min_element (pos_comp comp S) C < k0 := by omega
      have hi := lt_length_of_getElem? hk.1
      have hj := lt_length_of_getElem? hk0
      have hsort := List.pairwise_iff_getElem.1 hsorted _ _ hi hj hlt
      have hci : C[std.min_element (pos_comp comp S) C] = c := by
        have := hk.1
        rw [List.getElem?_eq_getElem hi] at this
        exact Option.some.inj this
      have hPj : C[k0] = P := by
        have := hk0
        rw [List.getElem?_eq_getElem hj] at this
        exact Option.some.inj this
      rw [hci, hPj] at hsort
      have := hsort (lt_length_of_getElem? hSc) hP.lt_length
      omega

/-! ## The local reduce selects the first minimum of the local range -/

theorem local_min_chk_loop_eq (comp : α → α → Bool) (lr : List α) :
    ∀ (rest : List Nat) (i s sv : Nat), (∀ x ∈ rest, x ≤ lr.length) →
      (lr.length = 0 ∨ sv < lr.length) →
      std.min_element_chk_loop
        (impl.distributed_parallel_tag.local_min_comp comp lr) rest i s sv =
        some (std.min_element_loop (pos_comp comp lr) rest i s sv) := by
  intro rest
  induction rest with
  | nil => intro i s sv _ _; rfl
  | cons x rest ih =>
    intro i s sv hb hsv
    have hrest : ∀ y ∈ rest, y ≤ lr.length := fun y hy => hb y (List.mem_cons_of_mem _ hy)
    have hx := hb x (List.mem_cons_self _ _)
    rw [std.min_element_chk_loop, std.min_element_loop]
    by_cases hxe : x = lr.length
    · have hc : impl.distributed_parallel_tag.local_min_comp comp lr x sv = some false := by
        unfold impl.distributed_parallel_tag.local_min_comp
        rw [if_neg (by simpa using hxe)]
      have hp : pos_comp comp lr x sv = false := by
        unfold pos_comp
        rw [hxe, List.getElem?_eq_none (Nat.le_refl _)]
        rfl
      rw [hc, hp]
      exact ih (i + 1) s sv hrest hsv
    · have hxlt : x < lr.length := by omega
      have hsvlt : sv < lr.length := by omega
      have hc : impl.distributed_parallel_tag.local_min_comp comp lr x sv =
          some (comp lr[x] lr[sv]) := by
        unfold impl.distributed_parallel_tag.local_min_comp deref
        rw [if_pos hxe, List.getElem?_eq_getElem hxlt, List.getElem?_eq_getElem hsvlt]
      have hp : pos_comp comp lr x sv = comp lr[x] lr[sv] := by
        unfold pos_comp
        rw [List.getElem?_eq_getElem hxlt, List.getElem?_eq_getElem hsvlt]
        rfl
      rw [hc, hp]
      cases comp lr[x] lr[sv] with
      | true => exact ih (i + 1) i x hrest (Or.inr hxlt)
      | false => exact ih (i + 1) s sv hrest hsv

/-- On the local positions the local map can produce, the local reduce of the minimum is
`std::min_element` for the comparator that compares the elements the positions hold. -/
theorem local_min_chk_eq (comp : α → α → Bool) (lr : List α) (L : List Nat)
    (h : LocalPosOk lr.length L) :
    std.min_element_chk (impl.distributed_parallel_tag.local_min_comp comp lr) L =
      some (std.min_element (pos_comp comp lr) L) := by
  cases L with
  | nil => rfl
  | cons x rest =>
    refine local_min_chk_loop_eq comp lr rest 1 0 x
      (fun y hy => h.1 y (List.mem_cons_of_mem _ hy)) ?_
    rcases h.2 with h0 | h1
    · exact Or.inl h0
    · exact Or.inr (h1 x rfl)

theorem blocks_from_ge : ∀ (p : Partition α) (b : Nat) (e : Nat × List α),
    e ∈ blocks_from b p → b ≤ e.1 := by
  intro p
  induction p with
  | nil =>
    intro b e he
    simp [blocks_from] at he
  | cons blk rest ih =>
    intro b e he
    rw [blocks_from, List.mem_cons] at he
    rcases he with he | he
    · rw [he]
    · have := ih _ e he
      omega

/-- Every block ends before the later blocks begin. -/
theorem blocks_from_pairwise : ∀ (p : Partition α) (b : Nat),
    List.Pairwise (fun e e' : Nat × List α => e.1 + e.2.length ≤ e'.1) (blocks_from b p) := by
  intro p
  induction p with
  | nil => intro b; exact List.Pairwise.nil
  | cons blk rest ih =>
    intro b
    rw [blocks_from, List.pairwise_cons]
    exact ⟨fun e he => blocks_from_ge rest _ e he, ih _⟩

/-- The first minimum of two non-empty adjacent segments. -/
theorem min_element_append {comp : α → α → Bool} (hc : StrictWeakOrder comp)
    {s1 s2 : List α} {p q : Nat} {e x : α}
    (h1 : FirstMinAt comp s1 p e) (h2 : FirstMinAt comp s2 q x) :
    std.min_element comp (s1 ++ s2) = if comp x e = true then s1.length + q else p := by
  have hne : s1 ++ s2 ≠ [] := by
    intro h
    have := h1.lt_length
    rw [(List.append_eq_nil.1 h).1] at this
    exact absurd this (Nat.not_lt_zero _)
  obtain ⟨y, hy⟩ := min_element_spec hc (s1 ++ s2) hne
  have hm := FirstMinAt.merge hc h1 h2
  split_ifs with hx
  · exact hy.unique (hm.1 hx)
  · exact hy.unique (hm.2 (by simpa using hx))

/-- The first minimum of a non-empty local range is the first minimum of one of its blocks. -/
theorem first_min_in_block {comp : α → α → Bool} (hc : StrictWeakOrder comp) :
    ∀ (p : Partition α) (b : Nat), local_range p ≠ [] →
      ∃ e ∈ blocks_from b p, e.2 ≠ [] ∧
        b + std.min_element comp (local_range p) = e.1 + std.min_element comp e.2 := by
  intro p
  induction p with
  | nil =>
    intro b h
    exact absurd rfl h
  | cons blk rest ih =>
    intro b h
    rw [local_range_cons] at h ⊢
    by_cases hblk : blk = []
    · subst hblk
      simp only [List.nil_append] at h ⊢
      obtain ⟨e, he, hne, heq⟩ := ih (b + ([] : List α).length) h
      refine ⟨e, ?_, hne, ?_⟩
      · rw [blocks_from]
        exact List.mem_cons_of_mem _ he
      · rw [← heq]
        simp
    · by_cases hrest : local_range rest = []
      · refine ⟨(b, blk), ?_, hblk, ?_⟩
        · rw [blocks_from]
          exact List.mem_cons_self _ _
        · rw [hrest, List.append_nil]
      · obtain ⟨x1, h1⟩ := min_element_spec hc blk hblk
        obtain ⟨x2, h2⟩ := min_element_spec hc (local_range rest) hrest
        rw [min_element_append hc h1 h2]
        split_ifs
        · obtain ⟨e, he, hne, heq⟩ := ih (b + blk.length) hrest
          refine ⟨e, ?_, hne, ?_⟩
          · rw [blocks_from]
            exact List.mem_cons_of_mem _ he
          · rw [← heq]
            omega
        · refine ⟨(b, blk), ?_, hblk, rfl⟩
          rw [blocks_from]
          exact List.mem_cons_self _ _

/-- The local reduce of the parallel `min_element` kernel selects the position
`std::min_element` finds in the whole local range. -/
theorem local_reduce_min_pos_eq {comp : α → α → Bool} (hc : StrictWeakOrder comp)
    (p : Partition α) :
    local_reduce_min_pos comp (std.min_element comp) p =
      std.min_element comp (local_range p) := by
  have hok := local_map_posOk (std.min_element comp) rfl (min_element_lt comp) p
  by_cases hlr : local_range p = []
  · have hle := local_reduce_min_pos_le comp (std.min_element comp) rfl (min_element_lt comp) p
    rw [hlr] at hle ⊢
    simpa [std.min_element] using hle
  · obtain ⟨x, hx⟩ := min_element_spec hc (local_range p) hlr
    obtain ⟨e, he, hne, heq⟩ := first_min_in_block hc p 0 hlr
    have hmem : std.min_element comp (local_range p) ∈
        local_map p (fun b blk => b + std.min_element comp blk) := by
      simp only [local_map, List.mem_map]
      exact ⟨e, he, by omega⟩
    have hsorted : List.Pairwise
        (fun x y => x < (local_range p).length → y < (local_range p).length → x ≤ y)
        (local_map p (fun b blk => b + std.min_element comp blk)) := by
      rw [local_map, List.pairwise_map]
      refine (blocks_from_pairwise p 0).imp ?_
      intro a b hab _ _
      have : std.min_element comp a.2 ≤ a.2.length := by
        by_cases ha : a.2 = []
        · rw [ha]
          exact Nat.zero_le _
        · exact Nat.le_of_lt (min_element_lt comp _ ha)
      omega
    have hsel := min_over_candidates hc (local_range p) _ _ x hx hmem hsorted
    unfold local_reduce_min_pos
    rw [local_min_chk_eq comp (local_range p) _ hok]
    simp only [hsel, Option.getD_some]

/-! ## The parallel `min_element` against the sequential `min_element` -/

theorem min_element_loop_congr_valid {β : Type} (E V : β → Prop) (c1 c2 : β → β → Bool)
    (hagree : ∀ x y, E x → V y → c1 x y = c2 x y)
    (hupd : ∀ x y, E x → c1 x y = true → V x) :
    ∀ (rest : List β) (i s : Nat) (sv : β), (∀ x ∈ rest, E x) → V sv →
      std.min_element_loop c1 rest i s sv = std.min_element_loop c2 rest i s sv := by
  intro rest
  induction rest with
  | nil => intro i s sv _ _; rfl
  | cons x rest ih =>
    intro i s sv hE hV
    have hx := hE x (List.mem_cons_self _ _)
    have hrest : ∀ y ∈ rest, E y := fun y hy => hE y (List.mem_cons_of_mem _ hy)
    rw [std.min_element_loop, std.min_element_loop, ← hagree x sv hx hV]
    cases hc : c1 x sv with
    | true => exact ih (i + 1) i x hrest (hupd x sv hx hc)
    | false => exact ih (i + 1) s sv hrest hV

/-- The sequential `min_element` returns the position `std::min_element` finds in the whole
sequence. -/
theorem seq_min_element_eq_std {comp : α → α → Bool} (hc : StrictWeakOrder comp) (dv : α)
    (r : DistributedRange α) :
    impl.distributed_sequential_tag.min_element dv comp r =
      std.min_element comp (elements r) := by
  by_cases hne : elements r = []
  · have h0 : 0 = range_last r := by simp [range_last, hne]
    simp only [impl.distributed_sequential_tag.min_element, if_pos h0, hne, std.min_element]
    exact h0.symm
  · obtain ⟨e, he⟩ := seq_min_element_firstMin hc dv r hne
    obtain ⟨x, hx⟩ := min_element_spec hc (elements r) hne
    exact he.unique hx

theorem localities_from_blocks (r : DistributedRange α) :
    ∀ b : Nat, (localities_from b r).map (fun v => (v.offset, local_range v.blocks)) =
      blocks_from b (r.map local_range) := by
  induction r with
  | nil => intro b; rfl
  | cons p ps ih =>
    intro b
    simp only [localities_from, List.map_cons, blocks_from, ih]

theorem par_min_out_eq {comp : α → α → Bool} (hc : StrictWeakOrder comp) (dv : α)
    (last : Nat) (v : LocalView α) :
    par_min_out dv comp last v =
      kernel_out dv last v (std.min_element comp (local_range v.blocks)) := by
  rw [par_min_out, local_reduce_min_pos_eq hc]

theorem par_min_out_fst {comp : α → α → Bool} (hc : StrictWeakOrder comp) (dv : α)
    (last : Nat) (v : LocalView α) :
    (par_min_out dv comp last v).1 =
      segment_candidate comp last (v.offset, local_range v.blocks) := by
  rw [par_min_out_eq hc]
  simp only [kernel_out, iterator_from_local, segment_candidate]
  by_cases h : local_range v.blocks = []
  · simp [h, std.min_element]
  · rw [if_neg (Nat.ne_of_lt (min_element_lt comp _ h)),
      if_neg (fun h0 => h (List.length_eq_zero.1 h0))]

theorem par_min_out_entryOk {comp : α → α → Bool} (hc : StrictWeakOrder comp) (dv : α)
    (r : DistributedRange α) (v : LocalView α) (hv : v ∈ localities r) :
    EntryOk (elements r) (par_min_out dv comp (range_last r) v) := by
  rw [par_min_out_eq hc]
  by_cases h : local_range v.blocks = []
  · have h0 : std.min_element comp (local_range v.blocks) = (local_range v.blocks).length := by
      rw [h]
      rfl
    rw [h0, kernel_out_nil]
    intro hne
    exact absurd rfl hne
  · intro _
    have hlt := min_element_lt comp _ h
    obtain ⟨h1, h2, _⟩ := kernel_out_valid dv r v hv _ _ (List.getElem?_eq_getElem hlt)
    rw [h1]
    exact h2

theorem global_min_comp_agree (comp : α → α → Bool) (S : List α) (x y : Nat × α)
    (hx : EntryOk S x) (hy : y.1 ≠ S.length ∧ S[y.1]? = some y.2) :
    (decide (x.1 ≠ S.length) && comp x.2 y.2) = pos_comp comp S x.1 y.1 := by
  unfold pos_comp
  by_cases h : x.1 = S.length
  · rw [h, List.getElem?_eq_none (Nat.le_refl _)]
    simp [key_comp]
  · rw [hx h, hy.2]
    simp [key_comp, h]

/-- With a non-empty first partition the final reduce of the parallel `min_element` is the
reduce over the reported positions by the elements they hold. -/
theorem global_min_reduce_eq (comp : α → α → Bool) (S : List α) (G : List (Nat × α))
    (hE : ∀ x ∈ G, EntryOk S x) (hhead : ∀ x, G.head? = some x → x.1 ≠ S.length) :
    std.min_element (fun x y => decide (x.1 ≠ S.length) && comp x.2 y.2) G =
      std.min_element (pos_comp comp S) (G.map Prod.fst) := by
  have h2 : std.min_element (fun (x y : Nat × α) => pos_comp comp S x.1 y.1) G =
      std.min_element (pos_comp comp S) (G.map Prod.fst) := by
    refine min_element_rel (fun (x : Nat × α) (y : Nat) => x.1 = y) _ _ ?_ _ _ ?_
    · intro x1 x2 y1 y2 hx hy
      rw [hx, hy]
    · rw [List.forall₂_map_right_iff, List.forall₂_same]
      intro x _
      rfl
  rw [← h2]
  cases G with
  | nil => rfl
  | cons g rest =>
    have hg := hhead g rfl
    exact min_element_loop_congr_valid (EntryOk S)
      (fun y => y.1 ≠ S.length ∧ S[y.1]? = some y.2) _ _
      (global_min_comp_agree comp S)
      (fun x y hx hc => by
        have hne : x.1 ≠ S.length := by
          by_contra h
          simp [h] at hc
        exact ⟨hne, hx hne⟩)
      rest 1 0 g (fun x hx => hE x (List.mem_cons_of_mem _ hx))
      ⟨hg, hE g (List.mem_cons_self _ _) hg⟩

/-- With a non-empty first partition and a strict weak order the parallel `min_element`
returns the position of the sequential `min_element`. -/
theorem par_min_element_eq_seq {comp : α → α → Bool} (hc : StrictWeakOrder comp) (dv : α)
    (r : DistributedRange α) (hfirst : FirstPartitionNonempty r) :
    impl.distributed_parallel_tag.min_element dv comp r =
      some (impl.distributed_sequential_tag.min_element dv comp r) := by
  obtain ⟨p, ps, hr, hp⟩ := hfirst
  have hne : elements r ≠ [] := by
    rw [hr, elements_cons]
    intro h
    exact hp (List.append_eq_nil.1 h).1
  obtain ⟨e, he⟩ := min_element_spec hc (elements r) hne
  rw [par_min_element_eq dv comp r hne, seq_min_element_eq_std hc]
  -- the reported positions are the candidates of the segments of the sequence
  have hpos : ((localities r).map (par_min_out dv comp (range_last r))).map Prod.fst =
      (blocks_from 0 (r.map local_range)).map (segment_candidate comp (range_last r)) := by
    rw [← localities_from_blocks r 0, List.map_map, List.map_map]
    refine List.map_congr_left (fun v _ => ?_)
    exact par_min_out_fst hc dv (range_last r) v
  have hmem : std.min_element comp (elements r) ∈
      (blocks_from 0 (r.map local_range)).map (segment_candidate comp (range_last r)) := by
    obtain ⟨b, hb, hbne, hbeq⟩ := first_min_in_block hc (r.map local_range) 0 hne
    refine List.mem_map.2 ⟨b, hb, ?_⟩
    rw [segment_candidate, if_neg (fun h0 => hbne (List.length_eq_zero.1 h0)), ← hbeq]
    exact Nat.zero_add _
  have hsorted : List.Pairwise
      (fun x y => x < (elements r).length → y < (elements r).length → x ≤ y)
      ((blocks_from 0 (r.map local_range)).map (segment_candidate comp (range_last r))) := by
    rw [List.pairwise_map]
    refine (blocks_from_pairwise (r.map local_range) 0).imp ?_
    intro a b hab ha hb
    unfold segment_candidate at ha hb ⊢
    by_cases ha2 : a.2.length = 0
    · rw [if_pos ha2] at ha
      exact absurd ha (Nat.lt_irrefl _)
    · by_cases hb2 : b.2.length = 0
      · rw [if_pos hb2] at hb
        exact absurd hb (Nat.lt_irrefl _)
      · rw [if_neg ha2, if_neg hb2]
        have := min_element_lt comp a.2 (fun h0 => ha2 (List.length_eq_zero.2 h0))
        omega
  have hsel := min_over_candidates hc (elements r) _ _ e he hmem hsorted
  have hred : std.min_element
      (fun (x y : Nat × α) => decide (x.1 ≠ range_last r) && comp x.2 y.2)
      ((localities r).map (par_min_out dv comp (range_last r))) =
      std.min_element (pos_comp comp (elements r))
        (((localities r).map (par_min_out dv comp (range_last r))).map Prod.fst) :=
    global_min_reduce_eq comp (elements r)
    ((localities r).map (par_min_out dv comp (range_last r)))
    (fun x hx => by
      obtain ⟨v, hv, hxv⟩ := List.mem_map.1 hx
      rw [← hxv]
      exact par_min_out_entryOk hc dv r v hv)
    (fun x hx => by
      rw [hr] at hx ⊢
      simp only [localities, localities_from, List.map_cons, List.head?_cons,
        Option.some.injEq] at hx
      rw [← hx, par_min_out_fst hc, segment_candidate,
        if_neg (fun h0 => hp (List.length_eq_zero.1 h0))]
      have h1 := min_element_lt comp _ hp
      have h2 : (local_range p).length ≤ (elements (p :: ps)).length := by
        rw [elements_cons, List.length_append]
        exact Nat.le_add_right _ _
      simp only []
      omega)
  rw [hred, ← List.getElem?_map, hpos, hsel]

/-- The kernel of the parallel `max_element` is the kernel of the parallel `min_element` for the
converse comparator. -/
theorem par_max_kernel_eq_min (dv : α) (comp : α → α → Bool) (last : Nat) :
    impl.distributed_parallel_tag.max_element_kernel dv comp last =
      impl.distributed_parallel_tag.min_element_kernel dv (fun a b => comp b a) last := by
  funext v
  simp only [impl.distributed_parallel_tag.max_element_kernel,
    impl.distributed_parallel_tag.min_element_kernel, max_element_eq_min,
    local_max_chk_eq_min]

/-- The parallel `max_element` is the parallel `min_element` of the converse comparator. -/
theorem par_max_element_eq_min (dv : α) (comp : α → α → Bool) (r : DistributedRange α) :
    impl.distributed_parallel_tag.max_element dv comp r =
      impl.distributed_parallel_tag.min_element dv (fun a b => comp b a) r := by
  simp only [impl.distributed_parallel_tag.max_element,
    impl.distributed_parallel_tag.min_element, max_element_eq_min, par_max_kernel_eq_min]

/-- With a non-empty first partition and a strict weak order the parallel `max_element`
returns the position of the sequential `max_element`. -/
theorem par_max_element_eq_seq {comp : α → α → Bool} (hc : StrictWeakOrder comp) (dv : α)
    (r : DistributedRange α) (hfirst : FirstPartitionNonempty r) :
    impl.distributed_parallel_tag.max_element dv comp r =
      some (impl.distributed_sequential_tag.max_element dv comp r) := by
  rw [par_max_element_eq_min, seq_max_element_eq_min]
  exact par_min_element_eq_seq hc.flip dv r hfirst

/-! ## The fold step of the sequential kernels -/

theorem select_kernel_keeps (pick : List α → Nat) (better : α → α → Bool)
    (r : DistributedRange α) (v : LocalView α) (hv : v ∈ localities r) (sol : Nat × α) :
    FoldStepKeeps better (range_last r) (local_range v.blocks) (pick (local_range v.blocks))
      sol (select_kernel pick better (range_last r) v sol) := by
  unfold select_kernel deref
  refine ⟨?_, ?_, ?_⟩
  · intro hnil
    rw [hnil, List.getElem?_nil]
  · intro c hc hsol himp
    rw [hc]
    simp only []
    rw [if_neg]
    rintro (h | h)
    · exact hsol h
    · rw [himp] at h
      exact absurd h (by decide)
  · intro hsol
    cases hx : (local_range v.blocks)[pick (local_range v.blocks)]? with
    | none => exact hsol
    | some x =>
      simp only []
      split_ifs
      · obtain ⟨_, _, h3⟩ := kernel_out_valid x r v hv _ x hx
        have hlt := lt_length_of_getElem? hx
        have hit : iterator_from_local (range_last r) v (pick (local_range v.blocks)) =
            v.offset + pick (local_range v.blocks) := by
          unfold iterator_from_local
          exact if_neg (Nat.ne_of_lt hlt)
        simp only [hit]
        exact h3
      · exact hsol

/-! ## The maximum side of the sequential `minmax_element` -/

theorem lastMaxAt_singleton {comp : α → α → Bool} (hc : StrictWeakOrder comp) (x : α) :
    LastMaxAt comp [x] 0 x := by
  refine ⟨rfl, ?_, ?_⟩
  · intro y hy
    rw [List.mem_singleton] at hy
    rw [hy]
    exact hc.irrefl x
  · intro j y hj hjy
    rw [List.getElem?_eq_none (by simpa using hj)] at hjy
    exact Option.noConfusion hjy

theorem minmax_loop_snd_lastMax {comp : α → α → Bool} (hc : StrictWeakOrder comp) :
    ∀ (rest pre : List α) (mn mx : Nat × α), LastMaxAt comp pre mx.1 mx.2 →
      ∃ e, LastMaxAt comp (pre ++ rest)
        (std.minmax_element_loop comp rest pre.length mn mx).2 e := by
  intro rest
  induction rest with
  | nil =>
    intro pre mn mx h
    exact ⟨mx.2, by simpa [std.minmax_element_loop] using h⟩
  | cons x rest ih =>
    intro pre mn mx h
    have hp := lt_length_of_getElem? h.1
    rw [std.minmax_element_loop]
    cases hx : comp x mx.2 with
    | true =>
      have hk : LastMaxAt comp (pre ++ [x]) mx.1 mx.2 := by
        refine ⟨?_, ?_, ?_⟩
        · rw [List.getElem?_append_left hp]
          exact h.1
        · intro y hy
          rcases List.mem_append.1 hy with hy | hy
          · exact h.2.1 y hy
          · rw [List.mem_singleton] at hy
            rw [hy]
            exact hc.asymm x mx.2 hx
        · intro j y hj hjy
          by_cases hlt : j < pre.length
          · rw [List.getElem?_append_left hlt] at hjy
            exact h.2.2 j y hj hjy
          · rw [List.getElem?_append_right (by omega)] at hjy
            have hy := List.getElem?_mem hjy
            rw [List.mem_singleton] at hy
            rw [hy]
            exact hx
      have := ih (pre ++ [x]) (if comp x mn.2 then (pre.length, x) else mn) mx hk
      simpa using this
    | false =>
      have hk : LastMaxAt comp (pre ++ [x]) pre.length x := by
        refine ⟨?_, ?_, ?_⟩
        · rw [List.getElem?_append_right (Nat.le_refl _)]
          simp
        · intro y hy
          rcases List.mem_append.1 hy with hy | hy
          · exact hc.neg_trans x mx.2 y hx (h.2.1 y hy)
          · rw [List.mem_singleton] at hy
            rw [hy]
            exact hc.irrefl x
        · intro j y hj hjy
          rw [List.getElem?_eq_none (by simp; omega)] at hjy
          exact Option.noConfusion hjy
      have := ih (pre ++ [x]) (if comp x mn.2 then (pre.length, x) else mn) (pre.length, x) hk
      simpa using this

/-- On a non-empty list the second component of `std::minmax_element` is the last maximum. -/
theorem pick_last_max_lastMaxAt {comp : α → α → Bool} (hc : StrictWeakOrder comp)
    (l : List α) (hl : l ≠ []) : ∃ e, LastMaxAt comp l (pick_last_max comp l) e := by
  cases l with
  | nil => exact absurd rfl hl
  | cons x rest =>
    have := minmax_loop_snd_lastMax hc rest [x] (0, x) (0, x) (lastMaxAt_singleton hc x)
    simpa [pick_last_max, std.minmax_element] using this

theorem elements_append (a b : DistributedRange α) :
    elements (a ++ b) = elements a ++ elements b := by
  simp [elements]

theorem elements_singleton (p : Partition α) : elements [p] = local_range p := by
  simp [elements]

theorem LastMaxEarliest.pos_lt_length {comp : α → α → Bool} {done : DistributedRange α} {q : Nat}
    {e : α} (h : LastMaxEarliest comp done q e) : q < (elements done).length := by
  obtain ⟨d1, p, d2, j, hdone, hq, hlm, _, _⟩ := h
  have hj := lt_length_of_getElem? hlm.1
  rw [hdone, elements_append, elements_cons]
  simp only [List.length_append]
  omega

/-- The candidate of the maximum side is less than no visited element. -/
theorem LastMaxEarliest.maximal {comp : α → α → Bool} (hc : StrictWeakOrder comp)
    {done : DistributedRange α} {q : Nat} {e : α} (h : LastMaxEarliest comp done q e) :
    ∀ y ∈ elements done, comp e y = false := by
  obtain ⟨d1, p, d2, j, hdone, _, hlm, h1, h2⟩ := h
  intro y hy
  rw [hdone, elements_append, elements_cons] at hy
  rcases List.mem_append.1 hy with hy | hy
  · exact hc.asymm y e (h1 y hy)
  · rcases List.mem_append.1 hy with hy | hy
    · exact hlm.2.1 y hy
    · exact h2 y hy

theorem LastMaxEarliest.get {comp : α → α → Bool} {done : DistributedRange α} {q : Nat}
    {e : α} (h : LastMaxEarliest comp done q e) : (elements done)[q]? = some e := by
  obtain ⟨d1, p, d2, j, hdone, hq, hlm, _, _⟩ := h
  have hj := lt_length_of_getElem? hlm.1
  rw [hdone, elements_append, elements_cons, hq,
    List.getElem?_append_right (Nat.le_add_right _ _),
    List.getElem?_append_left (by omega), ← hlm.1]
  congr 1
  omega

theorem last_max_kernel_inv {comp : α → α → Bool} (hc : StrictWeakOrder comp) (N : Nat)
    (done : DistributedRange α) (p : Partition α) (sol : Nat × α)
    (hN : (elements done).length + (local_range p).length ≤ N)
    (h : LastMaxInv comp N done sol) :
    LastMaxInv comp N (done ++ [p])
      (select_kernel (pick_last_max comp) (fun x m => comp m x) N
        ⟨(elements done).length, p⟩ sol) := by
  unfold select_kernel
  by_cases hl : local_range p = []
  · have hnone : deref (local_range p) (pick_last_max comp (local_range p)) = none := by
      simp [hl, deref]
    simp only [hnone]
    rcases h with ⟨h0, hsol⟩ | ⟨d1, p0, d2, j, hdone, hq, hlm, h1, h2⟩
    · left
      refine ⟨?_, hsol⟩
      rw [elements_append, elements_singleton, h0, hl]
      rfl
    · right
      refine ⟨d1, p0, d2 ++ [p], j, ?_, hq, hlm, h1, ?_⟩
      · rw [hdone]
        simp
      · intro y hy
        rw [elements_append, elements_singleton, hl, List.append_nil] at hy
        exact h2 y hy
  · obtain ⟨x, hx⟩ := pick_last_max_lastMaxAt hc (local_range p) hl
    have hlt := lt_length_of_getElem? hx.1
    have hit : iterator_from_local N ⟨(elements done).length, p⟩
        (pick_last_max comp (local_range p)) =
        (elements done).length + pick_last_max comp (local_range p) := by
      unfold iterator_from_local
      exact if_neg (Nat.ne_of_lt hlt)
    simp only [deref, hx.1, hit]
    have htake : (∀ y ∈ elements done, comp y x = true) →
        LastMaxEarliest comp (done ++ [p])
          ((elements done).length + pick_last_max comp (local_range p)) x := by
      intro hall
      refine ⟨done, p, [], _, rfl, rfl, hx, hall, ?_⟩
      intro y hy
      simp [elements] at hy
    rcases h with ⟨h0, hsol⟩ | h
    · rw [if_pos (Or.inl hsol)]
      right
      refine htake ?_
      intro y hy
      rw [h0] at hy
      exact absurd hy (List.not_mem_nil _)
    · have hq := h.pos_lt_length
      have hmax := h.maximal hc
      cases hb : comp sol.2 x with
      | true =>
        rw [if_pos (Or.inr rfl)]
        right
        refine htake ?_
        intro y hy
        cases hyx : comp y x with
        | true => rfl
        | false =>
          have := hc.neg_trans sol.2 y x (hmax y hy) hyx
          rw [hb] at this
          exact absurd this (by decide)
      | false =>
        rw [if_neg (by
          rintro (h1 | h1)
          · omega
          · exact absurd h1 (by decide))]
        right
        obtain ⟨d1, p0, d2, j, hdone, hq2, hlm, h1, h2⟩ := h
        refine ⟨d1, p0, d2 ++ [p], j, ?_, hq2, hlm, h1, ?_⟩
        · rw [hdone]
          simp
        · intro y hy
          rw [elements_append, elements_singleton] at hy
          rcases List.mem_append.1 hy with hy | hy
          · exact h2 y hy
          · exact hc.neg_trans sol.2 x y hb (hx.2.1 y hy)

theorem last_max_fold_inv {comp : α → α → Bool} (hc : StrictWeakOrder comp) (N : Nat) :
    ∀ (todo done : DistributedRange α) (sol : Nat × α),
      (elements done).length + (elements todo).length ≤ N → LastMaxInv comp N done sol →
      LastMaxInv comp N (done ++ todo)
        ((localities_from (elements done).length todo).foldl
          (fun s v => select_kernel (pick_last_max comp) (fun x m => comp m x) N v s) sol) := by
  intro todo
  induction todo with
  | nil =>
    intro done sol _ h
    simpa [localities_from] using h
  | cons p ps ih =>
    intro done sol hN h
    rw [elements_cons] at hN
    simp only [List.length_append] at hN
    have hk := last_max_kernel_inv hc N done p sol (by omega) h
    have := ih (done ++ [p]) _
      (by rw [elements_append, elements_singleton, List.length_append]; omega) hk
    rw [elements_append, elements_singleton, List.length_append] at this
    simpa [localities_from] using this

/-- The maximum side of the sequential `minmax_element` on a non-empty range is the last
maximum of a partition before which every element is smaller and after which none is
larger. -/
theorem seq_minmax_element_snd_lastMaxEarliest {comp : α → α → Bool}
    (hc : StrictWeakOrder comp) (dv : α) (r : DistributedRange α) (hne : elements r ≠ []) :
    ∃ e, LastMaxEarliest comp r
      (impl.distributed_sequential_tag.minmax_element dv comp r).2 e := by
  rw [seq_minmax_element_eq dv comp r hne]
  have := last_max_fold_inv hc (range_last r) r [] (range_last r, dv)
    (by simp [range_last, elements]) (Or.inl ⟨rfl, rfl⟩)
  simp only [List.nil_append] at this
  rcases this with ⟨h0, _⟩ | h
  · exact absurd h0 hne
  · exact ⟨_, h⟩

/-! ## The dispatch contract on one handle -/

theorem asyncExecuteAt_ok {F : Type} (sys : rt.TargetSystem F) (handle : rt.Handle F)
    (loc : Nat) (func : F) (hloc : loc < sys.numLocalities)
    (htr : sys.transferable func = true) :
    rt.impl.AsynchronousInterface.asyncExecuteAt sys handle loc func =
      Except.ok ⟨handle.outstanding + 1, handle.pending ++ [⟨loc, func, 0⟩],
        handle.completed⟩ := by
  simp only [rt.impl.AsynchronousInterface.asyncExecuteAt, if_pos hloc, if_pos htr]

theorem asyncForEachAt_ok {F : Type} (sys : rt.TargetSystem F) (handle : rt.Handle F)
    (loc : Nat) (func : F) (numIters : Nat) (hloc : loc < sys.numLocalities)
    (htr : sys.transferable func = true) :
    rt.impl.AsynchronousInterface.asyncForEachAt sys handle loc func numIters =
      Except.ok ⟨handle.outstanding + numIters,
        handle.pending ++ (List.range numIters).map (fun i => ⟨loc, func, i⟩),
        handle.completed⟩ := by
  simp only [rt.impl.AsynchronousInterface.asyncForEachAt, if_pos hloc, if_pos htr]

/-- Dispatching to each of the listed localities attaches the issued invocations in the order of
the list and raises the outstanding count by their number. -/
theorem dispatch_each_ok {F : Type} (step : rt.Handle F → Nat → Except rt.DispatchError (rt.Handle F))
    (issue : Nat → List (rt.Invocation F)) :
    ∀ (locs : List Nat) (handle : rt.Handle F),
      (∀ loc ∈ locs, ∀ h : rt.Handle F, step h loc =
        Except.ok ⟨h.outstanding + (issue loc).length, h.pending ++ issue loc, h.completed⟩) →
      rt.dispatch_each step locs handle =
        Except.ok ⟨handle.outstanding + ((locs.map issue).flatten).length,
          handle.pending ++ (locs.map issue).flatten, handle.completed⟩ := by
  intro locs
  induction locs with
  | nil =>
    intro handle _
    simp [rt.dispatch_each]
  | cons loc rest ih =>
    intro handle hstep
    rw [rt.dispatch_each, hstep loc (List.mem_cons_self _ _) handle]
    simp only []
    rw [ih _ (fun l hl => hstep l (List.mem_cons_of_mem _ hl))]
    simp only [List.map_cons, List.flatten_cons, List.length_append, List.append_assoc,
      Nat.add_assoc]

theorem perm_cons_eraseIdx {β : Type} :
    ∀ (l : List β) (k : Nat) (x : β), l[k]? = some x → List.Perm (x :: l.eraseIdx k) l := by
  intro l
  induction l with
  | nil =>
    intro k x h
    simp at h
  | cons a rest ih =>
    intro k x h
    cases k with
    | zero =>
      simp only [List.getElem?_cons_zero, Option.some.injEq] at h
      rw [h]
      exact List.Perm.refl _
    | succ k =>
      rw [List.getElem?_cons_succ] at h
      rw [List.eraseIdx_cons_succ]
      exact (List.Perm.swap a x _).trans ((ih k x h).cons a)

theorem complete_accounted {F : Type} (issued : List (rt.Invocation F)) (handle : rt.Handle F)
    (k : Nat) (h : Accounted issued handle) : Accounted issued (rt.complete handle k) := by
  unfold rt.complete
  cases hk : handle.pending[k]? with
  | none => exact h
  | some inv =>
    have hlt := lt_length_of_getElem? hk
    refine ⟨?_, ?_⟩
    · simp only [List.length_eraseIdx, if_pos hlt]
      rw [h.1]
    · simp only [List.append_assoc, List.singleton_append]
      exact (List.Perm.append_left _ (perm_cons_eraseIdx _ k inv hk)).trans h.2

theorem run_completions_accounted {F : Type} (issued : List (rt.Invocation F)) :
    ∀ (schedule : List Nat) (handle : rt.Handle F), Accounted issued handle →
      Accounted issued (rt.run_completions handle schedule) := by
  intro schedule
  induction schedule with
  | nil => intro handle h; exact h
  | cons k ks ih =>
    intro handle h
    exact ih _ (complete_accounted issued handle k h)

/-- When `wait()` returns, every issued operation has reported its completion. -/
theorem wait_returns_after_all {F : Type} (issued : List (rt.Invocation F))
    (handle drained : rt.Handle F) (h : Accounted issued handle)
    (hw : rt.waitForCompletion handle = some drained) :
    List.Perm drained.completed issued ∧ drained.pending = [] := by
  unfold rt.waitForCompletion at hw
  split_ifs at hw with h0
  have heq : handle = drained := Option.some.inj hw
  rw [← heq]
  have hp : handle.pending = [] := List.length_eq_zero.1 (by rw [← h.1]; exact h0)
  refine ⟨?_, hp⟩
  have := h.2
  rw [hp, List.append_nil] at this
  exact this

/-- Completing the first pending operation again and again drains the handle. -/
theorem run_completions_drains {F : Type} :
    ∀ (n : Nat) (handle : rt.Handle F), handle.pending.length = n →
      handle.outstanding = n →
      (rt.run_completions handle (List.replicate n 0)).outstanding = 0 := by
  intro n
  induction n with
  | zero =>
    intro handle _ h0
    exact h0
  | succ n ih =>
    intro handle hlen hout
    rw [List.replicate_succ, rt.run_completions]
    have hpos : 0 < handle.pending.length := by omega
    have hget : handle.pending[0]? = some handle.pending[0] := List.getElem?_eq_getElem hpos
    refine ih _ ?_ ?_
    · simp only [rt.complete, hget, List.length_eraseIdx, if_pos hpos]
      omega
    · simp only [rt.complete, hget]
      omega

theorem for_each_invocations_length {F : Type} (func : F) (numIters loc : Nat) :
    (for_each_invocations func numIters loc).length = numIters := by
  simp [for_each_invocations]

theorem flatten_for_each_length {F : Type} (func : F) (numIters : Nat) :
    ∀ locs : List Nat,
      ((locs.map (for_each_invocations func numIters)).flatten).length =
        numIters * locs.length := by
  intro locs
  induction locs with
  | nil => rfl
  | cons loc rest ih =>
    simp only [List.map_cons, List.flatten_cons, List.length_append, ih,
      for_each_invocations_length, List.length_cons]
    rw [Nat.mul_succ, Nat.add_comm]

theorem flatten_for_each_targets {F : Type} (func : F) (numIters : Nat) :
    ∀ locs : List Nat,
      ((locs.map (for_each_invocations func numIters)).flatten).map
        (fun inv => (inv.loc, inv.index)) = locs ×ˢ List.range numIters := by
  intro locs
  induction locs with
  | nil => rfl
  | cons loc rest ih =>
    simp only [List.map_cons, List.flatten_cons, List.map_append, ih]
    simp [for_each_invocations, List.product, List.flatMap, Function.comp_def]

theorem flatten_map_singleton {β γ : Type} (g : β → γ) :
    ∀ l : List β, (l.map (fun x => [g x])).flatten = l.map g := by
  intro l
  induction l with
  | nil => rfl
  | cons a rest ih => simp only [List.map_cons, List.flatten_cons, ih, List.singleton_append]

/-- On a transferable function `asyncForEachOnAll` succeeds and attaches the invocations of
every locality, in canonical order. -/
theorem asyncForEachOnAll_ok {F : Type} (sys : rt.TargetSystem F) (handle : rt.Handle F)
    (func : F) (numIters : Nat) (htr : sys.transferable func = true) :
    rt.impl.AsynchronousInterface.asyncForEachOnAll sys handle func numIters =
      Except.ok ⟨handle.outstanding + numIters * sys.numLocalities,
        handle.pending ++
          ((List.range sys.numLocalities).map (for_each_invocations func numIters)).flatten,
        handle.completed⟩ := by
  unfold rt.impl.AsynchronousInterface.asyncForEachOnAll rt.allLocalities
  rw [dispatch_each_ok _ (for_each_invocations func numIters)]
  · rw [flatten_for_each_length, List.length_range]
  · intro loc hloc h
    rw [asyncForEachAt_ok sys h loc func numIters (List.mem_range.1 hloc) htr,
      for_each_invocations_length]
    rfl

/-- Dispatching to each locality of a list is the monadic left fold of the dispatch step. -/
theorem dispatch_each_eq_foldlM {F : Type}
    (step : rt.Handle F → Nat → Except rt.DispatchError (rt.Handle F)) :
    ∀ (locs : List Nat) (handle : rt.Handle F),
      rt.dispatch_each step locs handle = locs.foldlM step handle := by
  intro locs
  induction locs with
  | nil => intro handle; rfl
  | cons loc rest ih =>
    intro handle
    rw [rt.dispatch_each, List.foldlM_cons]
    cases step handle loc with
    | error e => rfl
    | ok h1 => exact ih h1

/-! ## Main results -/

/-- C1, evaluated on the code: for the comparator `<` (a strict weak order) and the non-empty
sequence `[5]` whose first locality holds no element, the parallel `min_element` returns the
sentinel `last = 1` whereas the sequential `min_element` returns position `0`. -/
theorem par_min_element_differs_from_seq :
    StrictWeakOrder ltN ∧ elements ([[], [[5]]] : DistributedRange Nat) = [5] ∧
      impl.distributed_parallel_tag.min_element 0 ltN [[], [[5]]] = some 1 ∧
      impl.distributed_sequential_tag.min_element 0 ltN [[], [[5]]] = 0 :=
  ⟨strictWeakOrder_ltN, by decide, by decide, by decide⟩

/-- C2, evaluated on the code: for the comparator `<` on integers and the non-empty sequence
`[-3]` whose first locality holds no element, the parallel `max_element` returns the sentinel
`last = 1` whereas the sequential `max_element` returns position `0`. -/
theorem par_max_element_differs_from_seq :
    StrictWeakOrder ltZ ∧ elements ([[], [[-3]]] : DistributedRange Int) = [-3] ∧
      impl.distributed_parallel_tag.max_element 0 ltZ [[], [[-3]]] = some 1 ∧
      impl.distributed_sequential_tag.max_element 0 ltZ [[], [[-3]]] = 0 :=
  ⟨strictWeakOrder_ltZ, by decide, by decide, by decide⟩

/-- C3, evaluated on the code: for the comparator `<` and the sequence `[5, 5]` held by one
locality whose local range `local_map` cuts into `[5]` and `[5]`, the parallel
`minmax_element` returns `(0, 0)` whereas the sequential `minmax_element` returns `(0, 1)`;
for the sequence `[5]` behind an empty first partition the parallel one returns `(last, 0)`. -/
theorem par_minmax_element_differs_from_seq :
    StrictWeakOrder ltN ∧
      impl.distributed_parallel_tag.minmax_element 0 ltN [[[5], [5]]] = some (0, 0) ∧
      impl.distributed_sequential_tag.minmax_element 0 ltN [[[5], [5]]] = (0, 1) ∧
      impl.distributed_parallel_tag.minmax_element 0 ltN [[], [[5]]] = some (1, 0) ∧
      impl.distributed_sequential_tag.minmax_element 0 ltN [[], [[5]]] = (0, 0) :=
  ⟨strictWeakOrder_ltN, by decide, by decide, by decide, by decide⟩

/-- C4 fails as stated: for the comparator `<` and the sequence `[5, 5]` held by one partition
in one block, `minmax_element` returns `(0, 1)` under either policy, which is not the pair
`(0, 0)` of the positions `min_element` and `max_element` return under the same policy. -/
theorem minmax_element_ne_pair_of_min_max :
    StrictWeakOrder ltN ∧
      impl.distributed_sequential_tag.minmax_element 0 ltN [[[5, 5]]] ≠
        (impl.distributed_sequential_tag.min_element 0 ltN [[[5, 5]]],
         impl.distributed_sequential_tag.max_element 0 ltN [[[5, 5]]]) ∧
      impl.distributed_parallel_tag.minmax_element 0 ltN [[[5, 5]]] = some (0, 1) ∧
      impl.distributed_parallel_tag.min_element 0 ltN [[[5, 5]]] = some 0 ∧
      impl.distributed_parallel_tag.max_element 0 ltN [[[5, 5]]] = some 0 :=
  ⟨strictWeakOrder_ltN, by decide, by decide, by decide, by decide⟩

/-- C4 (amended): for every sequence, every partitioning of it, every cut of the partitions
into `local_map` sub-ranges and every strict weak order, under either policy `minmax_element`
returns a pair whose first position is exactly the position `min_element` returns under the
same policy, and whose second position and the position `max_element` returns under the same
policy are either both the sentinel `last` or both positions holding elements neither of
which is `comp`-less than the other. -/
theorem minmax_agrees_with_min_and_max_up_to_ties (dv : α) (comp : α → α → Bool)
    (r : DistributedRange α) (hc : StrictWeakOrder comp) :
    ((impl.distributed_sequential_tag.minmax_element dv comp r).1 =
        impl.distributed_sequential_tag.min_element dv comp r ∧
      SameUpToTies comp (elements r)
        (impl.distributed_sequential_tag.minmax_element dv comp r).2
        (impl.distributed_sequential_tag.max_element dv comp r)) ∧
    ∃ a b m, impl.distributed_parallel_tag.minmax_element dv comp r = some (a, b) ∧
      impl.distributed_parallel_tag.min_element dv comp r = some a ∧
      impl.distributed_parallel_tag.max_element dv comp r = some m ∧
      SameUpToTies comp (elements r) b m :=
  ⟨seq_minmax_element_vs_min_max hc dv r, par_minmax_element_vs_min_max hc dv r⟩

/-- Instance of the amended C4 on `[5] [5, 2] | [5, 5]`, a sequence with four tied maxima. -/
theorem minmax_agrees_with_min_and_max_up_to_ties_witness :
    StrictWeakOrder ltN ∧
      (((impl.distributed_sequential_tag.minmax_element 0 ltN [[[5], [5, 2]], [[5, 5]]]).1 =
          impl.distributed_sequential_tag.min_element 0 ltN [[[5], [5, 2]], [[5, 5]]] ∧
        SameUpToTies ltN (elements ([[[5], [5, 2]], [[5, 5]]] : DistributedRange Nat))
          (impl.distributed_sequential_tag.minmax_element 0 ltN [[[5], [5, 2]], [[5, 5]]]).2
          (impl.distributed_sequential_tag.max_element 0 ltN [[[5], [5, 2]], [[5, 5]]])) ∧
      ∃ a b m,
        impl.distributed_parallel_tag.minmax_element 0 ltN [[[5], [5, 2]], [[5, 5]]] =
          some (a, b) ∧
        impl.distributed_parallel_tag.min_element 0 ltN [[[5], [5, 2]], [[5, 5]]] = some a ∧
        impl.distributed_parallel_tag.max_element 0 ltN [[[5], [5, 2]], [[5, 5]]] = some m ∧
        SameUpToTies ltN (elements ([[[5], [5, 2]], [[5, 5]]] : DistributedRange Nat)) b m) :=
  ⟨strictWeakOrder_ltN,
    minmax_agrees_with_min_and_max_up_to_ties 0 ltN [[[5], [5, 2]], [[5, 5]]]
      strictWeakOrder_ltN⟩

/-- C5: for every non-empty sequence, every partitioning of it (empty partitions allowed) and
every strict weak order, the sequential `min_element` returns the position of the earliest
element that no element is `comp`-less than; in the scenario `[3,1,4,1] | [5,9,2,6]` with `<`
this is index `1`. -/
theorem seq_min_element_earliest_minimal (dv : α) (comp : α → α → Bool)
    (r : DistributedRange α) (hc : StrictWeakOrder comp) (hne : elements r ≠ []) :
    IsEarliestMinimal comp (elements r)
        (impl.distributed_sequential_tag.min_element dv comp r) ∧
      impl.distributed_sequential_tag.min_element 0 ltN scenario = 1 := by
  obtain ⟨e, he⟩ := seq_min_element_firstMin hc dv r hne
  exact ⟨isEarliestMinimal_of_firstMinAt he, by decide⟩

/-- Instance of C5 on `[2, 7] [] | | [1] [1, 3]`: an empty block, an empty partition and a tied
minimum; the position is `2`. -/
theorem seq_min_element_earliest_minimal_witness :
    elements ([[[2, 7], []], [], [[1], [1, 3]]] : DistributedRange Nat) ≠ [] ∧
      IsEarliestMinimal ltN (elements ([[[2, 7], []], [], [[1], [1, 3]]] : DistributedRange Nat))
        (impl.distributed_sequential_tag.min_element 0 ltN [[[2, 7], []], [], [[1], [1, 3]]]) ∧
      impl.distributed_sequential_tag.min_element 0 ltN [[[2, 7], []], [], [[1], [1, 3]]] = 2 :=
  ⟨by decide,
    (seq_min_element_earliest_minimal 0 ltN [[[2, 7], []], [], [[1], [1, 3]]]
      strictWeakOrder_ltN (by decide)).1,
    by decide⟩

/-- C6: for every non-empty sequence, every partitioning of it (empty partitions allowed) and
every strict weak order, the sequential `max_element` returns the position of the earliest
element that is `comp`-less than no element; in the scenario `[3,1,4,1] | [5,9,2,6]` with `<`
this is index `5`. -/
theorem seq_max_element_earliest_maximal (dv : α) (comp : α → α → Bool)
    (r : DistributedRange α) (hc : StrictWeakOrder comp) (hne : elements r ≠ []) :
    IsEarliestMaximal comp (elements r)
        (impl.distributed_sequential_tag.max_element dv comp r) ∧
      impl.distributed_sequential_tag.max_element 0 ltN scenario = 5 := by
  obtain ⟨e, he⟩ := seq_min_element_firstMin hc.flip dv r hne
  rw [← seq_max_element_eq_min] at he
  exact ⟨isEarliestMaximal_of_firstMinAt he, by decide⟩

/-- Instance of C6 on `[2, 7] [] | | [7] [1, 3]`: an empty block, an empty partition and a tied
maximum; the position is `1`. -/
theorem seq_max_element_earliest_maximal_witness :
    elements ([[[2, 7], []], [], [[7], [1, 3]]] : DistributedRange Nat) ≠ [] ∧
      IsEarliestMaximal ltN (elements ([[[2, 7], []], [], [[7], [1, 3]]] : DistributedRange Nat))
        (impl.distributed_sequential_tag.max_element 0 ltN [[[2, 7], []], [], [[7], [1, 3]]]) ∧
      impl.distributed_sequential_tag.max_element 0 ltN [[[2, 7], []], [], [[7], [1, 3]]] = 1 :=
  ⟨by decide,
    (seq_max_element_earliest_maximal 0 ltN [[[2, 7], []], [], [[7], [1, 3]]]
      strictWeakOrder_ltN (by decide)).1,
    by decide⟩

/-- C7, evaluated on the code: the sequence `[5, 5]` with the comparator `<` makes the
sequential `minmax_element` return `(0, 1)` when it is held by one partition and `(0, 0)`
when it is split into the two partitions `[5] | [5]`. -/
theorem seq_minmax_element_depends_on_partitioning :
    StrictWeakOrder ltN ∧
      elements ([[[5, 5]]] : DistributedRange Nat) = elements [[[5]], [[5]]] ∧
      impl.distributed_sequential_tag.minmax_element 0 ltN [[[5, 5]]] = (0, 1) ∧
      impl.distributed_sequential_tag.minmax_element 0 ltN [[[5]], [[5]]] = (0, 0) :=
  ⟨strictWeakOrder_ltN, by decide, by decide, by decide⟩

/-- C8, evaluated on the code: on the sequence `[5]` behind an empty first partition, with the
comparator `<`, the three parallel reductions return different positions for the placeholder
values `0` and `10`. -/
theorem par_reductions_depend_on_placeholder :
    StrictWeakOrder ltN ∧
      impl.distributed_parallel_tag.min_element 0 ltN [[], [[5]]] = some 1 ∧
      impl.distributed_parallel_tag.min_element 10 ltN [[], [[5]]] = some 0 ∧
      impl.distributed_parallel_tag.max_element 0 ltN [[], [[5]]] = some 0 ∧
      impl.distributed_parallel_tag.max_element 10 ltN [[], [[5]]] = some 1 ∧
      impl.distributed_parallel_tag.minmax_element 0 ltN [[], [[5]]] = some (1, 0) ∧
      impl.distributed_parallel_tag.minmax_element 10 ltN [[], [[5]]] = some (0, 1) :=
  ⟨strictWeakOrder_ltN, by decide, by decide, by decide, by decide, by decide, by decide⟩

/-- C9: for each of the three sequential reductions, every input and any two seed values
`d1`, `d2`, the returned positions are the same. -/
theorem seq_reductions_seed_independent (d1 d2 : α) (comp : α → α → Bool)
    (r : DistributedRange α) :
    impl.distributed_sequential_tag.min_element d1 comp r =
        impl.distributed_sequential_tag.min_element d2 comp r ∧
      impl.distributed_sequential_tag.max_element d1 comp r =
        impl.distributed_sequential_tag.max_element d2 comp r ∧
      impl.distributed_sequential_tag.minmax_element d1 comp r =
        impl.distributed_sequential_tag.minmax_element d2 comp r := by
  have hmin : impl.distributed_sequential_tag.min_element d1 comp r =
      impl.distributed_sequential_tag.min_element d2 comp r := by
    unfold impl.distributed_sequential_tag.min_element
    simp only []
    split_ifs
    · rfl
    · exact select_fold_seed (std.min_element comp) comp d1 d2 r
  have hmax : impl.distributed_sequential_tag.max_element d1 comp r =
      impl.distributed_sequential_tag.max_element d2 comp r := by
    unfold impl.distributed_sequential_tag.max_element
    simp only []
    split_ifs
    · rfl
    · exact select_fold_seed (std.max_element comp) (fun x s => comp s x) d1 d2 r
  refine ⟨hmin, hmax, ?_⟩
  by_cases hne : elements r = []
  · have h0 : 0 = range_last r := by simp [range_last, hne]
    simp only [impl.distributed_sequential_tag.minmax_element, if_pos h0]
  · rw [seq_minmax_element_eq d1 comp r hne, seq_minmax_element_eq d2 comp r hne, hmin,
      select_fold_seed (pick_last_max comp) (fun x m => comp m x) d1 d2 r]

/-- C10: when the range is empty, each of `min_element`, `max_element` and `minmax_element`
returns the sentinel `last` (the pair `(last, last)` for `minmax_element`) under both
policies, for every comparator. -/
theorem empty_range_returns_last (dv : α) (comp : α → α → Bool) (r : DistributedRange α)
    (hempty : elements r = []) :
    impl.distributed_sequential_tag.min_element dv comp r = range_last r ∧
      impl.distributed_sequential_tag.max_element dv comp r = range_last r ∧
      impl.distributed_sequential_tag.minmax_element dv comp r =
        (range_last r, range_last r) ∧
      impl.distributed_parallel_tag.min_element dv comp r = some (range_last r) ∧
      impl.distributed_parallel_tag.max_element dv comp r = some (range_last r) ∧
      impl.distributed_parallel_tag.minmax_element dv comp r =
        some (range_last r, range_last r) := by
  have h0 : 0 = range_last r := by simp [range_last, hempty]
  simp only [impl.distributed_sequential_tag.min_element,
    impl.distributed_sequential_tag.max_element,
    impl.distributed_sequential_tag.minmax_element,
    impl.distributed_parallel_tag.min_element,
    impl.distributed_parallel_tag.max_element,
    impl.distributed_parallel_tag.minmax_element, if_pos h0, and_self]

/-- Instance of C10 on a range of three localities none of which holds an element. -/
theorem empty_range_returns_last_witness :
    elements ([[], [[], []], [[]]] : DistributedRange Nat) = [] ∧
      impl.distributed_sequential_tag.min_element 7 ltN [[], [[], []], [[]]] = 0 ∧
      impl.distributed_parallel_tag.minmax_element 7 ltN [[], [[], []], [[]]] = some (0, 0) :=
  have h := empty_range_returns_last 7 ltN [[], [[], []], [[]]] (by decide)
  ⟨by decide, h.1, h.2.2.2.2.2⟩

/-- C13: in each of the sequential `min_element`, `max_element` and `minmax_element` kernels,
for every running solution and every partition of the range, the running solution (position
and value) is returned unchanged when the partition is empty, and when the running solution is
not `none` and the local candidate does not strictly improve it (`comp(candidate, running)` is
false for a minimum, `comp(running, candidate)` is false for a maximum), so a tie never
changes it; and a running solution that is not `none` never becomes `none`. -/
theorem seq_kernels_keep_running_solution (comp : α → α → Bool) (r : DistributedRange α)
    (v : LocalView α) (sol : Nat × α) (s : impl.distributed_sequential_tag.sol_t α)
    (hv : v ∈ localities r) :
    FoldStepKeeps comp (range_last r) (local_range v.blocks)
        (std.min_element comp (local_range v.blocks)) sol
        (impl.distributed_sequential_tag.min_element_kernel comp (range_last r) v sol) ∧
      FoldStepKeeps (fun c run => comp run c) (range_last r) (local_range v.blocks)
        (std.max_element comp (local_range v.blocks)) sol
        (impl.distributed_sequential_tag.max_element_kernel comp (range_last r) v sol) ∧
      FoldStepKeeps comp (range_last r) (local_range v.blocks)
        (std.minmax_element comp (local_range v.blocks)).1 (s.min, s.min_val)
        ((impl.distributed_sequential_tag.minmax_element_kernel comp (range_last r) v s).min,
         (impl.distributed_sequential_tag.minmax_element_kernel comp (range_last r) v s).min_val) ∧
      FoldStepKeeps (fun c run => comp run c) (range_last r) (local_range v.blocks)
        (std.minmax_element comp (local_range v.blocks)).2 (s.max, s.max_val)
        ((impl.distributed_sequential_tag.minmax_element_kernel comp (range_last r) v s).max,
         (impl.distributed_sequential_tag.minmax_element_kernel comp (range_last r) v s).max_val)
    := by
  refine ⟨?_, ?_, ?_, ?_⟩
  · rw [seq_min_kernel_eq_select]
    exact select_kernel_keeps _ _ r v hv sol
  · rw [seq_max_kernel_eq_select]
    exact select_kernel_keeps _ _ r v hv sol
  · rw [seq_minmax_kernel_split, minmax_fst]
    exact select_kernel_keeps _ _ r v hv (s.min, s.min_val)
  · rw [seq_minmax_kernel_split]
    exact select_kernel_keeps (pick_last_max comp) _ r v hv (s.max, s.max_val)

/-- Instance of C13 on the range `[3, 1] | [4, 1]`: the second partition offers the candidate `1`
at its local position `1`, a tie with the running solution `(1, 1)`, which stays as it is. -/
theorem seq_kernels_keep_running_solution_witness :
    (⟨2, [[4, 1]]⟩ : LocalView Nat) ∈ localities ([[[3, 1]], [[4, 1]]] : DistributedRange Nat) ∧
      FoldStepKeeps ltN 4 [4, 1] 1 (1, 1)
        (impl.distributed_sequential_tag.min_element_kernel ltN 4 ⟨2, [[4, 1]]⟩ (1, 1)) ∧
      impl.distributed_sequential_tag.min_element_kernel ltN 4 ⟨2, [[4, 1]]⟩ (1, 1) = (1, 1) :=
  ⟨List.mem_cons_of_mem _ (List.mem_cons_self _ _),
    (seq_kernels_keep_running_solution ltN [[[3, 1]], [[4, 1]]] ⟨2, [[4, 1]]⟩ (1, 1)
      ⟨1, 0, 1, 3⟩ (List.mem_cons_of_mem _ (List.mem_cons_self _ _))).1,
    by decide⟩

/-- C15: for every sequence whose first partition in canonical order is non-empty (later
partitions may be empty, and the partitions may be cut into `local_map` sub-ranges in any
way) and every strict weak order, the parallel `min_element` returns the position of the
sequential `min_element` and the parallel `max_element` returns the position of the
sequential `max_element`. -/
theorem par_min_max_agree_with_seq_of_first_nonempty (dv : α) (comp : α → α → Bool)
    (r : DistributedRange α) (hc : StrictWeakOrder comp) (hfirst : FirstPartitionNonempty r) :
    impl.distributed_parallel_tag.min_element dv comp r =
        some (impl.distributed_sequential_tag.min_element dv comp r) ∧
      impl.distributed_parallel_tag.max_element dv comp r =
        some (impl.distributed_sequential_tag.max_element dv comp r) :=
  ⟨par_min_element_eq_seq hc dv r hfirst, par_max_element_eq_seq hc dv r hfirst⟩

/-- Instance of C15 on `[3] [1, 4] | | [1, 5] [5]`: an empty second partition, tied minima and
tied maxima; both policies return position `1` for the minimum and `4` for the maximum. -/
theorem par_min_max_agree_with_seq_of_first_nonempty_witness :
    StrictWeakOrder ltN ∧
      FirstPartitionNonempty ([[[3], [1, 4]], [], [[1, 5], [5]]] : DistributedRange Nat) ∧
      (impl.distributed_parallel_tag.min_element 0 ltN [[[3], [1, 4]], [], [[1, 5], [5]]] =
          some (impl.distributed_sequential_tag.min_element 0 ltN
            [[[3], [1, 4]], [], [[1, 5], [5]]]) ∧
        impl.distributed_parallel_tag.max_element 0 ltN [[[3], [1, 4]], [], [[1, 5], [5]]] =
          some (impl.distributed_sequential_tag.max_element 0 ltN
            [[[3], [1, 4]], [], [[1, 5], [5]]])) ∧
      impl.distributed_sequential_tag.min_element 0 ltN [[[3], [1, 4]], [], [[1, 5], [5]]] = 1 ∧
      impl.distributed_sequential_tag.max_element 0 ltN [[[3], [1, 4]], [], [[1, 5], [5]]] = 4 :=
  ⟨strictWeakOrder_ltN, ⟨_, _, rfl, by decide⟩,
    par_min_max_agree_with_seq_of_first_nonempty 0 ltN [[[3], [1, 4]], [], [[1, 5], [5]]]
      strictWeakOrder_ltN ⟨_, _, rfl, by decide⟩,
    by decide, by decide⟩

/-- C16, evaluated on the code: on the non-empty sequence `[5]` behind an empty first partition,
with the comparator `<` and the placeholder `0`, the parallel `min_element` returns the
sentinel `last = 1`; on the sequence `[-3]` behind an empty first partition the parallel
`max_element` returns the sentinel `last = 1`. -/
theorem par_min_max_return_sentinel_on_nonempty_range :
    StrictWeakOrder ltN ∧ StrictWeakOrder ltZ ∧
      range_last ([[], [[5]]] : DistributedRange Nat) = 1 ∧
      impl.distributed_parallel_tag.min_element 0 ltN [[], [[5]]] =
        some (range_last ([[], [[5]]] : DistributedRange Nat)) ∧
      range_last ([[], [[-3]]] : DistributedRange Int) = 1 ∧
      impl.distributed_parallel_tag.max_element 0 ltZ [[], [[-3]]] =
        some (range_last ([[], [[-3]]] : DistributedRange Int)) :=
  ⟨strictWeakOrder_ltN, strictWeakOrder_ltZ, by decide, by decide, by decide, by decide⟩

/-- C17: for every sequence, partitioning and comparator, the first (min) position returned by
the sequential `minmax_element` is the position returned by the sequential `min_element`. -/
theorem seq_minmax_first_is_seq_min (dv : α) (comp : α → α → Bool) (r : DistributedRange α) :
    (impl.distributed_sequential_tag.minmax_element dv comp r).1 =
      impl.distributed_sequential_tag.min_element dv comp r := by
  by_cases hne : elements r = []
  · have h0 : 0 = range_last r := by simp [range_last, hne]
    simp only [impl.distributed_sequential_tag.minmax_element,
      impl.distributed_sequential_tag.min_element, if_pos h0]
  · rw [seq_minmax_element_eq dv comp r hne]

/-- C14 fails as stated: for the comparator `<` and the sequence `[5, 5]` held by one partition
the second position returned by the sequential `minmax_element` is `1`, which is not the
earliest maximal element (position `0`). -/
theorem seq_minmax_second_not_earliest_maximal :
    StrictWeakOrder ltN ∧
      (impl.distributed_sequential_tag.minmax_element 0 ltN [[[5, 5]]]).2 = 1 ∧
      IsEarliestMaximal ltN (elements ([[[5, 5]]] : DistributedRange Nat)) 0 ∧
      ¬ IsEarliestMaximal ltN (elements ([[[5, 5]]] : DistributedRange Nat))
        (impl.distributed_sequential_tag.minmax_element 0 ltN [[[5, 5]]]).2 := by
  refine ⟨strictWeakOrder_ltN, by decide, ?_, ?_⟩
  · refine ⟨⟨5, rfl, by decide⟩, ?_⟩
    intro j e hj
    exact absurd hj (Nat.not_lt_zero j)
  · intro h
    obtain ⟨y, hy, hlt⟩ := h.2 0 5 (by decide) rfl
    have hy5 : y = 5 := by
      have : y ∈ [5, 5] := hy
      simpa using this
    rw [hy5] at hlt
    exact absurd hlt (by decide)

/-- C14 (amended): for every non-empty sequence, partitioning and strict weak order, the second
position returned by the sequential `minmax_element` holds a maximal element of the whole
sequence and is never before the position of the sequential `max_element`, the earliest
maximal element; it is the earliest maximal element when the maximum is not tied. -/
theorem seq_minmax_second_is_maximal (dv : α) (comp : α → α → Bool) (r : DistributedRange α)
    (hc : StrictWeakOrder comp) (hne : elements r ≠ []) :
    (∃ e, (elements r)[(impl.distributed_sequential_tag.minmax_element dv comp r).2]? = some e ∧
        ∀ y ∈ elements r, comp e y = false) ∧
      impl.distributed_sequential_tag.max_element dv comp r ≤
        (impl.distributed_sequential_tag.minmax_element dv comp r).2 ∧
      (UniqueMaximum comp (elements r) →
        IsEarliestMaximal comp (elements r)
          (impl.distributed_sequential_tag.minmax_element dv comp r).2) := by
  obtain ⟨e, he⟩ := seq_minmax_element_snd_maxAt hc dv r hne
  obtain ⟨y, hy⟩ := seq_min_element_firstMin hc.flip dv r hne
  rw [← seq_max_element_eq_min] at hy
  refine ⟨⟨e, he.1, he.2⟩, ?_, ?_⟩
  · by_contra hlt
    have := hy.2.2 _ e (Nat.lt_of_not_le hlt) he.1
    have h2 := he.2 y (List.getElem?_mem hy.1)
    have h3 : comp e y = true := this
    rw [h2] at h3
    exact absurd h3 (by decide)
  · intro huniq
    have heq := huniq _ _ e y he.1 hy.1 he.2 hy.2.1
    rw [heq]
    exact isEarliestMaximal_of_firstMinAt hy

/-- Instance of the amended C14 on `[2, 7] | [7, 1] | [7]`: the maximum `7` is tied, the second
position of the sequential `minmax_element` is `1` and the earliest maximal element is `1`. -/
theorem seq_minmax_second_is_maximal_witness :
    StrictWeakOrder ltN ∧ elements ([[[2, 7]], [[7, 1]], [[7]]] : DistributedRange Nat) ≠ [] ∧
      ((∃ e, (elements ([[[2, 7]], [[7, 1]], [[7]]] : DistributedRange Nat))[
          (impl.distributed_sequential_tag.minmax_element 0 ltN
            [[[2, 7]], [[7, 1]], [[7]]]).2]? = some e ∧
          ∀ y ∈ elements ([[[2, 7]], [[7, 1]], [[7]]] : DistributedRange Nat),
            ltN e y = false) ∧
        impl.distributed_sequential_tag.max_element 0 ltN [[[2, 7]], [[7, 1]], [[7]]] ≤
          (impl.distributed_sequential_tag.minmax_element 0 ltN
            [[[2, 7]], [[7, 1]], [[7]]]).2) ∧
      (impl.distributed_sequential_tag.minmax_element 0 ltN [[[2, 7]], [[7, 1]], [[7]]]).2 = 1 :=
  have h := seq_minmax_second_is_maximal 0 ltN [[[2, 7]], [[7, 1]], [[7]]]
    strictWeakOrder_ltN (by decide)
  ⟨strictWeakOrder_ltN, by decide, ⟨h.1, h.2.1⟩, by decide⟩

/-- C18: for every non-empty sequence, partitioning and strict weak order, the second (max)
position returned by the sequential `minmax_element` is the last maximal element inside the
earliest partition that contains a maximal element of the whole sequence; the element it
holds and the element at the position of the sequential `max_element` are equivalent under
`comp` (neither is less than the other). -/
theorem seq_minmax_second_is_last_maximal_of_earliest_partition (dv : α)
    (comp : α → α → Bool) (r : DistributedRange α) (hc : StrictWeakOrder comp)
    (hne : elements r ≠ []) :
    IsLastMaximalOfEarliestPartition comp r
        (impl.distributed_sequential_tag.minmax_element dv comp r).2 ∧
      ∃ x y, (elements r)[(impl.distributed_sequential_tag.minmax_element dv comp r).2]? =
          some x ∧
        (elements r)[impl.distributed_sequential_tag.max_element dv comp r]? = some y ∧
        comp x y = false ∧ comp y x = false := by
  obtain ⟨e, he⟩ := seq_minmax_element_snd_lastMaxEarliest hc dv r hne
  have hget := he.get
  have hmax := he.maximal hc
  have hmem := List.getElem?_mem hget
  obtain ⟨y, hy⟩ := seq_max_element_maxAt hc dv r hne
  refine ⟨?_, e, y, hget, hy.1, hmax y (List.getElem?_mem hy.1), hy.2 e hmem⟩
  obtain ⟨d1, p, d2, j, hr, hq, hlm, h1, _⟩ := he
  exact ⟨d1, p, d2, j, e, hr, hq, hlm.1, hmax, fun x hx => ⟨e, hmem, h1 x hx⟩,
    fun k x hk hkx => ⟨e, hmem, hlm.2.2 k x hk hkx⟩⟩

/-- Instance of C18 on `[2, 7, 1, 7, 3] | [7]`: the earliest partition holding the maximum `7`
is the first one, whose last maximal element is at position `3`. -/
theorem seq_minmax_second_is_last_maximal_of_earliest_partition_witness :
    StrictWeakOrder ltN ∧
      elements ([[[2, 7, 1, 7, 3]], [[7]]] : DistributedRange Nat) ≠ [] ∧
      IsLastMaximalOfEarliestPartition ltN [[[2, 7, 1, 7, 3]], [[7]]]
        (impl.distributed_sequential_tag.minmax_element 0 ltN [[[2, 7, 1, 7, 3]], [[7]]]).2 ∧
      (impl.distributed_sequential_tag.minmax_element 0 ltN [[[2, 7, 1, 7, 3]], [[7]]]).2 = 3 :=
  ⟨strictWeakOrder_ltN, by decide,
    (seq_minmax_second_is_last_maximal_of_earliest_partition 0 ltN
      [[[2, 7, 1, 7, 3]], [[7]]] strictWeakOrder_ltN (by decide)).1,
    by decide⟩

/-- C11: `asyncExecuteOnAll(handle, func, args)` is the issue of `asyncExecuteAt(handle, loc, func,
args)` once for every locality `loc` in canonical order on the same handle: it attaches to the
handle exactly one invocation per locality, in canonical order, and the outstanding count of
the handle rises by exactly the number of localities. -/
theorem asyncExecuteOnAll_is_one_asyncExecuteAt_per_locality {F : Type}
    (sys : rt.TargetSystem F) (handle : rt.Handle F) (func : F)
    (htr : sys.transferable func = true) :
    rt.impl.AsynchronousInterface.asyncExecuteOnAll sys handle func =
        (List.range sys.numLocalities).foldlM
          (fun h loc => rt.impl.AsynchronousInterface.asyncExecuteAt sys h loc func) handle ∧
      rt.impl.AsynchronousInterface.asyncExecuteOnAll sys handle func =
        Except.ok ⟨handle.outstanding + sys.numLocalities,
          handle.pending ++ (List.range sys.numLocalities).map (fun loc => ⟨loc, func, 0⟩),
          handle.completed⟩ := by
  refine ⟨dispatch_each_eq_foldlM _ _ _, ?_⟩
  unfold rt.impl.AsynchronousInterface.asyncExecuteOnAll rt.allLocalities
  rw [dispatch_each_ok _ (fun loc => [⟨loc, func, 0⟩])]
  · rw [flatten_map_singleton, List.length_map, List.length_range]
  · intro loc hloc h
    exact asyncExecuteAt_ok sys h loc func (List.mem_range.1 hloc) htr

/-- Instance of C11 on five localities and a handle with two outstanding operations: the count
becomes `7` and the localities `0, 1, 2, 3, 4` each receive one invocation, in this order. -/
theorem asyncExecuteOnAll_is_one_asyncExecuteAt_per_locality_witness :
    five_localities.transferable () = true ∧
      rt.impl.AsynchronousInterface.asyncExecuteOnAll five_localities
          ⟨2, [⟨3, (), 0⟩, ⟨3, (), 1⟩], []⟩ () =
        Except.ok ⟨7, [⟨3, (), 0⟩, ⟨3, (), 1⟩, ⟨0, (), 0⟩, ⟨1, (), 0⟩, ⟨2, (), 0⟩,
          ⟨3, (), 0⟩, ⟨4, (), 0⟩], []⟩ :=
  ⟨rfl, (asyncExecuteOnAll_is_one_asyncExecuteAt_per_locality five_localities
    ⟨2, [⟨3, (), 0⟩, ⟨3, (), 1⟩], []⟩ () rfl).2⟩

/-- C12: `asyncForEachOnAll(handle, func, args, count)` on a drained handle issues exactly
`count × |localities|` invocations, every locality receiving every index in `[0, count)`
exactly once (the issued pairs of locality and index have no duplicate and are the pairs with
a locality of the system and an index below `count`); whatever the interleaving of the
completions, `wait()` on the handle returns only after all of them have completed, the
reported completions being the issued invocations; and there is an interleaving after which
`wait()` returns. -/
theorem asyncForEachOnAll_drains_after_all_completions {F : Type} (sys : rt.TargetSystem F)
    (func : F) (numIters : Nat) (htr : sys.transferable func = true) :
    ∃ issued : rt.Handle F,
      rt.impl.AsynchronousInterface.asyncForEachOnAll sys ⟨0, [], []⟩ func numIters =
        Except.ok issued ∧
      issued.outstanding = numIters * sys.numLocalities ∧
      issued.pending.length = numIters * sys.numLocalities ∧
      (issued.pending.map (fun inv => (inv.loc, inv.index))).Nodup ∧
      (∀ loc i, (loc, i) ∈ issued.pending.map (fun inv => (inv.loc, inv.index)) ↔
        loc < sys.numLocalities ∧ i < numIters) ∧
      (∀ (schedule : List Nat) (drained : rt.Handle F),
        rt.waitForCompletion (rt.run_completions issued schedule) = some drained →
        drained.completed.length = numIters * sys.numLocalities ∧
          List.Perm drained.completed issued.pending) ∧
      ∃ schedule : List Nat,
        (rt.waitForCompletion (rt.run_completions issued schedule)).isSome = true := by
  refine ⟨_, asyncForEachOnAll_ok sys ⟨0, [], []⟩ func numIters htr, ?_, ?_, ?_, ?_, ?_, ?_⟩
  · exact Nat.zero_add _
  · simp only [List.nil_append, flatten_for_each_length, List.length_range]
  · simp only [List.nil_append, flatten_for_each_targets]
    exact (List.nodup_range _).product (List.nodup_range _)
  · intro loc i
    simp only [List.nil_append, flatten_for_each_targets, List.mem_product, List.mem_range]
  · intro schedule drained hw
    have hacc : Accounted
        (((List.range sys.numLocalities).map (for_each_invocations func numIters)).flatten)
        (⟨0 + numIters * sys.numLocalities,
          [] ++ ((List.range sys.numLocalities).map (for_each_invocations func numIters)).flatten,
          []⟩ : rt.Handle F) := by
      refine ⟨?_, ?_⟩
      · simp only [List.nil_append, flatten_for_each_length, List.length_range, Nat.zero_add]
      · simp only [List.nil_append]
        exact List.Perm.refl _
    have hdone := wait_returns_after_all _ _ drained
      (run_completions_accounted _ schedule _ hacc) hw
    refine ⟨?_, ?_⟩
    · rw [hdone.1.length_eq, flatten_for_each_length, List.length_range]
    · simpa only [List.nil_append] using hdone.1
  · refine ⟨List.replicate (numIters * sys.numLocalities) 0, ?_⟩
    have := run_completions_drains (numIters * sys.numLocalities)
      (⟨0 + numIters * sys.numLocalities,
        [] ++ ((List.range sys.numLocalities).map (for_each_invocations func numIters)).flatten,
        []⟩ : rt.Handle F)
      (by simp only [List.nil_append, flatten_for_each_length, List.length_range])
      (Nat.zero_add _)
    simp only [rt.waitForCompletion, this, if_true, Option.isSome_some]

/-- Instance of C12 with `count = 10` on five localities: `50` invocations are issued, and in
every interleaving `wait()` returns only when exactly `50` completions have been reported. -/
theorem asyncForEachOnAll_drains_after_all_completions_witness :
    five_localities.transferable () = true ∧
      ∃ issued : rt.Handle Unit,
        rt.impl.AsynchronousInterface.asyncForEachOnAll five_localities ⟨0, [], []⟩ () 10 =
          Except.ok issued ∧
        issued.outstanding = 50 ∧ issued.pending.length = 50 ∧
        ∀ (schedule : List Nat) (drained : rt.Handle Unit),
          rt.waitForCompletion (rt.run_completions issued schedule) = some drained →
          drained.completed.length = 50 := by
  obtain ⟨issued, h1, h2, h3, _, _, h5, _⟩ :=
    asyncForEachOnAll_drains_after_all_completions five_localities () 10 rfl
  exact ⟨rfl, issued, h1, h2, h3, fun schedule drained hw => (h5 schedule drained hw).1⟩

end shad
